import Mathlib

set_option linter.unusedSectionVars false

/-!
Verification of the sliding DFT library (src/src/sdft.cpp, src/include/sdft/sdft.h).

The C++ code works on buffers of `std::complex<Float>` for a floating point
type `Float`.  The claims under verification speak about exact (real)
arithmetic, so the embedding replaces the floating point type by an arbitrary
commutative ring `F` with decidable equality and models a complex number as a
pair of `F` values (`Cplx F` below), with the usual complex ring operations.
Buffers become `List (Cplx F)`; the engine state mirrors the fields of
`struct Impl` and `struct Combined` one for one, and every C++ member function
becomes a Lean function on that state (mutation = returning the new state).

The twiddle value `exp(j*2*pi/window_size)` is not expressible inside an
abstract ring, so the engine constructor takes the intended primitive root of
unity `ω` as a parameter; in exact arithmetic `exp(j*2*pi*i/W) = ω ^ i`, which
is precisely how the constructor fills the `phase_offsets` buffer.  Theorems
that need the defining property of the complex exponential assume `ω ^ W = 1`,
the fact that is true of the exact value `exp(j*2*pi/W)`.
-/

/-- `enum sdft_FloatPrecision` from include/sdft/sdft.h.  In the C++ source the
precision selects the `Impl<Float>` template instantiation; in the embedding it
is carried as a tag so that `combine_with` can model the
`dynamic_cast<Impl<Float>*>` check (which fails across instantiations). -/
inductive FloatPrecision where
  | single
  | double
  | long_double
deriving DecidableEq, Repr

/-- `enum sdft_SignalTraits` from include/sdft/sdft.h. -/
inductive SignalTraits where
  | real_and_imag
  | real_only
  | imag_only
deriving DecidableEq, Repr

/-- `enum sdft_Error` from include/sdft/sdft.h. -/
inductive sdft_Error where
  | NO_ERROR
  | WINDOW_TOO_SHORT
  | SIGNAL_TRAIT_VIOLATION
  | NOT_COMBINABLE
deriving DecidableEq, Repr

/-- A complex number over the scalar type `F`: the exact-arithmetic stand-in
for `std::complex<Float>` (a real part followed by an imaginary part). -/
structure Cplx (F : Type) where
  re : F
  im : F
deriving DecidableEq, Repr

namespace Cplx

theorem ext_iff {F : Type} {a b : Cplx F} : a = b ↔ a.re = b.re ∧ a.im = b.im := by
  constructor
  · intro h; exact ⟨congrArg re h, congrArg im h⟩
  · rintro ⟨h1, h2⟩; cases a; cases b; cases h1; cases h2; rfl

variable {F : Type} [CommRing F]

instance : Zero (Cplx F) := ⟨⟨0, 0⟩⟩
instance : One (Cplx F) := ⟨⟨1, 0⟩⟩
instance : Add (Cplx F) := ⟨fun a b => ⟨a.re + b.re, a.im + b.im⟩⟩
instance : Neg (Cplx F) := ⟨fun a => ⟨-a.re, -a.im⟩⟩
instance : Sub (Cplx F) := ⟨fun a b => ⟨a.re - b.re, a.im - b.im⟩⟩
instance : Mul (Cplx F) :=
  ⟨fun a b => ⟨a.re * b.re - a.im * b.im, a.re * b.im + a.im * b.re⟩⟩

@[simp] theorem zero_re : (0 : Cplx F).re = 0 := rfl
@[simp] theorem zero_im : (0 : Cplx F).im = 0 := rfl
@[simp] theorem one_re : (1 : Cplx F).re = 1 := rfl
@[simp] theorem one_im : (1 : Cplx F).im = 0 := rfl
@[simp] theorem add_re (a b : Cplx F) : (a + b).re = a.re + b.re := rfl
@[simp] theorem add_im (a b : Cplx F) : (a + b).im = a.im + b.im := rfl
@[simp] theorem neg_re (a : Cplx F) : (-a).re = -a.re := rfl
@[simp] theorem neg_im (a : Cplx F) : (-a).im = -a.im := rfl
@[simp] theorem sub_re (a b : Cplx F) : (a - b).re = a.re - b.re := rfl
@[simp] theorem sub_im (a b : Cplx F) : (a - b).im = a.im - b.im := rfl
@[simp] theorem mul_re (a b : Cplx F) : (a * b).re = a.re * b.re - a.im * b.im := rfl
@[simp] theorem mul_im (a b : Cplx F) : (a * b).im = a.re * b.im + a.im * b.re := rfl

instance : CommRing (Cplx F) where
  nsmul := nsmulRec
  zsmul := zsmulRec
  add_assoc a b c := by rw [ext_iff]; constructor <;> simp <;> ring
  zero_add a := by rw [ext_iff]; constructor <;> simp
  add_zero a := by rw [ext_iff]; constructor <;> simp
  add_comm a b := by rw [ext_iff]; constructor <;> simp <;> ring
  mul_assoc a b c := by rw [ext_iff]; constructor <;> simp <;> ring
  one_mul a := by rw [ext_iff]; constructor <;> simp
  mul_one a := by rw [ext_iff]; constructor <;> simp
  mul_comm a b := by rw [ext_iff]; constructor <;> simp <;> ring
  left_distrib a b c := by rw [ext_iff]; constructor <;> simp <;> ring
  right_distrib a b c := by rw [ext_iff]; constructor <;> simp <;> ring
  zero_mul a := by rw [ext_iff]; constructor <;> simp
  mul_zero a := by rw [ext_iff]; constructor <;> simp
  sub_eq_add_neg a b := by rw [ext_iff]; constructor <;> simp <;> ring
  neg_add_cancel a := by rw [ext_iff]; constructor <;> simp

end Cplx

--
-- The single Window Engine: `struct Impl<Float>` (src/src/sdft.cpp, lines 31-76
-- and 172-284).
--

/-- The state of `struct Impl<Float>` (src/src/sdft.cpp).  The three raw
pointers `_signal`, `_spectrum`, `_phase_offsets` become lists; `precision`
records the template instantiation `Float` (cf. `FloatPrecision`). -/
structure Impl (F : Type) where
  precision : FloatPrecision
  signal : List (Cplx F)
  spectrum : List (Cplx F)
  phase_offsets : List (Cplx F)
  signal_index : Nat
  number_of_samples : Nat
  signal_traits : SignalTraits
deriving DecidableEq, Repr

namespace Impl

variable {F : Type} [CommRing F] [DecidableEq F]

/-- The constructor `Impl<Float>::Impl` (src/src/sdft.cpp lines 172-184): keeps
the caller supplied `signal` and `spectrum` buffers untouched, sets
`_signal_index = 0` and fills `phase_offsets[i] = exp(j*2*pi*i/n) = ω ^ i`,
where the parameter `ω` stands for the exact value `exp(j*2*pi/n)`. -/
def init (ω : Cplx F) (precision : FloatPrecision) (signal spectrum : List (Cplx F))
    (number_of_samples : Nat) (signal_traits : SignalTraits) : Impl F :=
  { precision := precision
    signal := signal
    spectrum := spectrum
    phase_offsets := (List.range number_of_samples).map (fun i => ω ^ i)
    signal_index := 0
    number_of_samples := number_of_samples
    signal_traits := signal_traits }

end Impl

/-- The trait check of `Impl<Float>::matches_signal_trait` (src/src/sdft.cpp
lines 186-192), separated from the state so that hypotheses can quantify over
a trait alone. -/
def traitOk {F : Type} [CommRing F] [DecidableEq F] (tr : SignalTraits)
    (c : Cplx F) : Bool :=
  decide (tr = SignalTraits.real_and_imag)
    || (decide (tr = SignalTraits.real_only) && decide (c.im = 0))
    || (decide (tr = SignalTraits.imag_only) && decide (c.re = 0))

namespace Impl

variable {F : Type} [CommRing F] [DecidableEq F]

/-- `Impl<Float>::matches_signal_trait` (src/src/sdft.cpp lines 186-192). -/
def matches_signal_trait (s : Impl F) (c : Cplx F) : Bool :=
  traitOk s.signal_traits c

/-- `Impl<Float>::validate` (src/src/sdft.cpp lines 194-210): window length at
least 1, then every buffer element `_signal[i]`, `i < _number_of_samples`,
checked against the signal trait. -/
def validate (s : Impl F) : sdft_Error :=
  if s.number_of_samples < 1 then sdft_Error.WINDOW_TOO_SHORT
  else if (List.range s.number_of_samples).all
      (fun i => s.matches_signal_trait (s.signal.getD i 0)) then
    sdft_Error.NO_ERROR
  else sdft_Error.SIGNAL_TRAIT_VIOLATION

/-- `Impl<Float>::clear` (src/src/sdft.cpp lines 212-224): zeroes the first
`_number_of_samples` entries of `_signal` and `_spectrum` (the whole buffers,
given their length) and rewinds `_signal_index`. -/
def clear (s : Impl F) : Impl F :=
  { s with
    signal := List.replicate s.number_of_samples 0
    spectrum := List.replicate s.number_of_samples 0
    signal_index := 0 }

/-- The number of spectrum bins updated by a push: `n_bins` in
`Impl<Float>::push_next_sample` (src/src/sdft.cpp lines 240-242). -/
def n_bins (s : Impl F) : Nat :=
  if s.signal_traits = SignalTraits.real_and_imag then s.number_of_samples
  else s.number_of_samples / 2

/-- The spectrum loop of `Impl<Float>::push_next_sample` (src/src/sdft.cpp
lines 244-246): `spectrum[i] = (spectrum[i] + delta) * phase_offsets[i]` for
`i < n_bins`, entries at index `n_bins` and above untouched. -/
def upd_spectrum (delta : Cplx F) (po spec : List (Cplx F)) (nbins : Nat) :
    List (Cplx F) :=
  (List.range spec.length).map
    (fun i => if i < nbins then (spec.getD i 0 + delta) * po.getD i 0 else spec.getD i 0)

/-- `Impl<Float>::push_next_sample` (src/src/sdft.cpp lines 226-254).  The
C++ writes `_signal[_signal_index] += delta` with `delta = ns - old`; the
embedding keeps that expression verbatim (`old + (ns - old)`). -/
def push_next_sample (s : Impl F) (ns : Cplx F) : sdft_Error × Impl F :=
  if !s.matches_signal_trait ns then (sdft_Error.SIGNAL_TRAIT_VIOLATION, s)
  else
    let old := s.signal.getD s.signal_index 0
    let delta := ns - old
    let spectrum := upd_spectrum delta s.phase_offsets s.spectrum s.n_bins
    let signal := s.signal.set s.signal_index (old + delta)
    let signal_index :=
      if s.signal_index + 1 = s.number_of_samples then 0 else s.signal_index + 1
    (sdft_Error.NO_ERROR,
      { s with spectrum := spectrum, signal := signal, signal_index := signal_index })

/-- The state after a push, errors discarded (on an error the C++ leaves the
state untouched and so does `push_next_sample`). -/
def pushState (s : Impl F) (ns : Cplx F) : Impl F :=
  (s.push_next_sample ns).2

/-- The loop of `Impl<Float>::unshift_and_get_signal` (src/src/sdft.cpp lines
273-277): repeatedly `signal[cur] = signal[next]` following the cycle
`cur -> (cur + ofs) % n`.  Returns the final buffer and final `cur`. -/
def unshiftLoop (n ofs : Nat) : List (Cplx F) → Nat → Nat → List (Cplx F) × Nat
  | sig, cur, 0 => (sig, cur)
  | sig, cur, i + 1 =>
    let next := (cur + ofs) % n
    unshiftLoop n ofs (sig.set cur (sig.getD next 0)) next i

/-- `Impl<Float>::unshift_and_get_signal` (src/src/sdft.cpp lines 256-284);
the returned buffer is the `signal` field of the returned state. -/
def unshift_and_get_signal (s : Impl F) : Impl F :=
  if s.signal_index = 0 then s
  else
    let n := s.number_of_samples
    let first := s.signal.getD 0 0
    let r := unshiftLoop n s.signal_index s.signal 0 (n - 1)
    { s with signal := r.1.set r.2 first, signal_index := 0 }

end Impl

--
-- The Combiner: `struct Combined<Float>` (src/src/sdft.cpp, lines 78-107 and
-- 286-338).
--

/-- The state of `struct Combined<Float>` (src/src/sdft.cpp).  The C++ stores
pointers `_first`, `_second` to the two inner engines; the embedding stores
the engines themselves. -/
structure Combined (F : Type) where
  first : Impl F
  second : Impl F
  number_of_samples : Nat
  clear_counter : Nat
deriving DecidableEq, Repr

namespace Combined

variable {F : Type} [CommRing F] [DecidableEq F]

/-- The constructor `Combined<Float>::Combined` (src/src/sdft.cpp lines
286-291): takes over `first` as is, clears `second`, starts the counter at 0. -/
def init (first second : Impl F) : Combined F :=
  { first := first
    second := second.clear
    number_of_samples := first.number_of_samples
    clear_counter := 0 }

/-- `Combined<Float>::validate` (src/src/sdft.cpp lines 293-297). -/
def validate (_c : Combined F) : sdft_Error :=
  sdft_Error.NO_ERROR

/-- `Combined<Float>::get_spectrum` (src/src/sdft.cpp lines 88-95): the first
engine's spectrum while `_clear_counter <= _number_of_samples`, else the
second's. -/
def get_spectrum (c : Combined F) : List (Cplx F) :=
  if c.clear_counter ≤ c.number_of_samples then c.first.spectrum else c.second.spectrum

/-- `Combined<Float>::push_next_sample` (src/src/sdft.cpp lines 299-328).
Note the order of operations: the scheduled `clear()` of an inner engine
happens before the sample is validated inside `Impl::push_next_sample`. -/
def push_next_sample (c : Combined F) (ns : Cplx F) : sdft_Error × Combined F :=
  let c1 :=
    if c.clear_counter = c.number_of_samples then { c with first := c.first.clear }
    else if c.clear_counter = 2 * c.number_of_samples then
      { c with second := c.second.clear, clear_counter := 0 }
    else c
  let r1 := c1.first.push_next_sample ns
  let c2 := { c1 with first := r1.2 }
  if r1.1 ≠ sdft_Error.NO_ERROR then (r1.1, c2)
  else
    let r2 := c2.second.push_next_sample ns
    let c3 := { c2 with second := r2.2 }
    if r2.1 ≠ sdft_Error.NO_ERROR then (r2.1, c3)
    else (sdft_Error.NO_ERROR, { c3 with clear_counter := c3.clear_counter + 1 })

/-- The state after a push, errors discarded. -/
def pushState (c : Combined F) (ns : Cplx F) : Combined F :=
  (c.push_next_sample ns).2

/-- `Combined<Float>::unshift_and_get_signal` (src/src/sdft.cpp lines 330-338):
delegates to the engine selected by the same rule as `get_spectrum`; the
returned buffer is that engine's `signal` after the unshift. -/
def unshift_and_get_signal (c : Combined F) : Combined F :=
  if c.clear_counter ≤ c.number_of_samples then
    { c with first := c.first.unshift_and_get_signal }
  else
    { c with second := c.second.unshift_and_get_signal }

/-- The window buffer exposed by `Combined<Float>::unshift_and_get_signal`. -/
def unshift_window (c : Combined F) : List (Cplx F) :=
  if c.clear_counter ≤ c.number_of_samples then
    c.first.unshift_and_get_signal.signal
  else
    c.second.unshift_and_get_signal.signal

end Combined

--
-- The exported interface: `struct sdft_State` and the `sdft_*` functions
-- (src/src/sdft.cpp lines 12-26 and 109-166).
--

/-- A `struct sdft_State`: either a single engine or a combined pair (the two
concrete classes deriving from the abstract base in src/src/sdft.cpp). -/
inductive State (F : Type) where
  | impl : Impl F → State F
  | comb : Combined F → State F
deriving DecidableEq

namespace State

variable {F : Type} [CommRing F] [DecidableEq F]

/-- Virtual dispatch of `validate`. -/
def validate : State F → sdft_Error
  | impl s => s.validate
  | comb c => c.validate

/-- `combine_with` (src/src/sdft.cpp lines 54-63 and 97-100): only a pair of
single engines of the same template instantiation (`dynamic_cast`, modelled by
the `precision` tag), window size and signal trait is combinable; on success
the freshly constructed Combiner is returned.  A `Combined` is never
combinable. -/
def combine_with : State F → State F → sdft_Error × Option (Combined F)
  | impl s, impl o =>
    if s.precision = o.precision ∧ o.number_of_samples = s.number_of_samples
        ∧ o.signal_traits = s.signal_traits then
      (sdft_Error.NO_ERROR, some (Combined.init s o))
    else (sdft_Error.NOT_COMBINABLE, none)
  | impl _, comb _ => (sdft_Error.NOT_COMBINABLE, none)
  | comb _, _ => (sdft_Error.NOT_COMBINABLE, none)

end State

/-- `sdft_init_from_buffers` (src/src/sdft.cpp lines 118-141): constructs the
engine in place over the caller's buffers and returns `validate()`. -/
def sdft_init_from_buffers {F : Type} [CommRing F] [DecidableEq F] (ω : Cplx F)
    (precision : FloatPrecision) (signal spectrum : List (Cplx F))
    (number_of_samples : Nat) (signal_traits : SignalTraits) :
    sdft_Error × Impl F :=
  let s := Impl.init ω precision signal spectrum number_of_samples signal_traits
  (s.validate, s)

/-- `sdft_init_combine` (src/src/sdft.cpp lines 143-151): `combine_with`, and
on success the validation of the freshly built combined state. -/
def sdft_init_combine {F : Type} [CommRing F] [DecidableEq F]
    (first second : State F) : sdft_Error × Option (Combined F) :=
  match first.combine_with second with
  | (e, none) => (e, none)
  | (_, some c) => ((State.comb c).validate, some c)

/-- Pushing a whole sample list into a single engine, oldest first
(a caller loop around `sdft_push_next_sample`). -/
def implRun {F : Type} [CommRing F] [DecidableEq F] (s : Impl F)
    (xs : List (Cplx F)) : Impl F :=
  xs.foldl Impl.pushState s

/-- Pushing a whole sample list into a combined state, oldest first. -/
def combRun {F : Type} [CommRing F] [DecidableEq F] (c : Combined F)
    (xs : List (Cplx F)) : Combined F :=
  xs.foldl Combined.pushState c

--
-- Derived notions used by the statements: well-formedness, the window in
-- temporal order, list suffixes and the naive DFT of the test suite.
--

namespace Impl

variable {F : Type} [CommRing F] [DecidableEq F]

/-- Well-formedness of an engine: the window and spectrum buffers have exactly
`window_size` entries (what the caller contract of sdft_init_from_buffers
requires and `clear` re-establishes) and the cursor is in range. -/
def wf (s : Impl F) : Prop :=
  s.signal.length = s.number_of_samples
    ∧ s.spectrum.length = s.number_of_samples
    ∧ s.signal_index < s.number_of_samples

instance (s : Impl F) : Decidable s.wf := by
  unfold wf; exact inferInstance

/-- The window read in true temporal order, oldest first: entry `t` is
`_signal[(_signal_index + t) % n]` (Invariant I1 of the specification). -/
def chrono (s : Impl F) : List (Cplx F) :=
  (List.range s.number_of_samples).map
    (fun t => s.signal.getD ((s.signal_index + t) % s.number_of_samples) 0)

end Impl

/-- The last `n` entries of a list (all of it when it is shorter). -/
def lastN {α : Type} (n : Nat) (l : List α) : List α :=
  l.drop (l.length - n)

/-- The value the sliding recurrence accumulates in a bin whose twiddle factor
is `ωk`: the DFT-style correlation of the temporally ordered window `w` with
powers of `ωk`, the exponent of entry `t` being `n - t`. -/
def sdftSum {F : Type} [CommRing F] (ωk : Cplx F) (n : Nat)
    (w : List (Cplx F)) : Cplx F :=
  ∑ t ∈ Finset.range n, w.getD t 0 * ωk ^ (n - t)

/-- Bin `k` of the naively computed DFT, the exact-arithmetic reading of the
reference `dft` in src/test/main.c (lines 12-26):
`spec[k] = sum_j signal[j] * exp(-j*2*pi*((k*j) % n)/n)`, the exponential
written as the power `ω ^ ((n - (k*j) % n) % n)` of the primitive root. -/
def dftBin {F : Type} [CommRing F] (ω : Cplx F) (n : Nat)
    (xs : List (Cplx F)) (k : Nat) : Cplx F :=
  ∑ j ∈ Finset.range n, xs.getD j 0 * ω ^ ((n - (k * j) % n) % n)

--
-- Ghost instrumentation of the Combiner: the same state with two extra
-- counters recording, for each inner engine, the number of samples it has
-- accumulated since it was last reset to zero.  The `c` component evolves by
-- the unmodified `Combined.push_next_sample`, see
-- `CombinedA.push_next_sample` and the erasure lemma below.
--

/-- A `Combined` state together with the ghost ages (pushes absorbed since the
respective inner engine was last cleared). -/
structure CombinedA (F : Type) where
  c : Combined F
  age1 : Nat
  age2 : Nat
deriving DecidableEq

namespace CombinedA

variable {F : Type} [CommRing F] [DecidableEq F]

/-- `Combined<Float>::push_next_sample` with ghost age bookkeeping: an age
drops to 0 when the corresponding engine is cleared by the scheduled reset,
and both ages grow by 1 when the push goes through. -/
def push_next_sample (ca : CombinedA F) (ns : Cplx F) : sdft_Error × CombinedA F :=
  let r := ca.c.push_next_sample ns
  let cleared1 := ca.c.clear_counter = ca.c.number_of_samples
  let cleared2 := ¬ ca.c.clear_counter = ca.c.number_of_samples
      ∧ ca.c.clear_counter = 2 * ca.c.number_of_samples
  let inc := if r.1 = sdft_Error.NO_ERROR then 1 else 0
  (r.1,
    { c := r.2
      age1 := (if cleared1 then 0 else ca.age1) + inc
      age2 := (if cleared2 then 0 else ca.age2) + inc })

/-- The state after a push, errors discarded. -/
def pushState (ca : CombinedA F) (ns : Cplx F) : CombinedA F :=
  (ca.push_next_sample ns).2

/-- The age of the engine whose buffers `get_spectrum` and
`unshift_and_get_signal` expose. -/
def exposedAge (ca : CombinedA F) : Nat :=
  if ca.c.clear_counter ≤ ca.c.number_of_samples then ca.age1 else ca.age2

end CombinedA

/-- Pushing a whole sample list into an instrumented combined state. -/
def combARun {F : Type} [CommRing F] [DecidableEq F] (ca : CombinedA F)
    (xs : List (Cplx F)) : CombinedA F :=
  xs.foldl CombinedA.pushState ca

/-- The inner engine whose buffers a Combiner currently exposes: the selection
rule shared by `Combined::get_spectrum` and
`Combined::unshift_and_get_signal` (src/src/sdft.cpp lines 92-94 and
335-337). -/
def Combined.exposed {F : Type} [CommRing F] [DecidableEq F]
    (c : Combined F) : Impl F :=
  if c.clear_counter ≤ c.number_of_samples then c.first else c.second

/-- The value of a Combiner's `_clear_counter` after `m >= 1` pushes (derived
below): the counter climbs `1, ..., 2n` and wraps back to 1. -/
def ccAfter (n m : Nat) : Nat :=
  (m - 1) % (2 * n) + 1

/-- The number of pushes the Combiner's exposed engine has absorbed since it
was last reset to zero, after `m >= 1` pushes of window size `n` (derived
below): up to `2 * n`, not `n`. -/
def exposedAgeAfter (n m : Nat) : Nat :=
  if m ≤ n then m
  else if ccAfter n m ≤ n then ccAfter n m + n
  else ccAfter n m

/-- An engine over freshly zeroed caller buffers (the precondition of the
round-trip and spectral claims: window and spectrum start zero-filled). -/
def zeroEngine {F : Type} [CommRing F] [DecidableEq F] (ω : Cplx F)
    (precision : FloatPrecision) (n : Nat) (tr : SignalTraits) : Impl F :=
  Impl.init ω precision (List.replicate n 0) (List.replicate n 0) n tr

--
-- Concrete fixtures used by witnesses and counterexamples.  `Cplx Int` is the
-- exact-arithmetic scalar; `⟨0, 1⟩` is the exact value of `exp(j*2*pi/4)`.
--

namespace Fixtures

/-- The exact primitive fourth root of unity, `exp(j*2*pi/4) = j`. -/
def ω4 : Cplx Int := ⟨0, 1⟩

/-- A window-size-4 engine on zeroed buffers, full signal trait. -/
def eng4 : Impl Int :=
  zeroEngine ω4 FloatPrecision.double 4 SignalTraits.real_and_imag

/-- A window-size-4 engine on zeroed buffers, real-only signal trait. -/
def eng4r : Impl Int :=
  zeroEngine ω4 FloatPrecision.double 4 SignalTraits.real_only

/-- A window-size-1 engine on zeroed buffers, real-only signal trait. -/
def eng1r : Impl Int :=
  zeroEngine ω4 FloatPrecision.double 1 SignalTraits.real_only

/-- A window-size-0 engine (window too short to be valid standalone). -/
def eng0 : Impl Int :=
  zeroEngine ω4 FloatPrecision.double 0 SignalTraits.real_and_imag

/-- Six real samples; pushing them into a window of size 4 leaves the write
cursor at `6 % 4 = 2`, whose gcd with 4 is 2. -/
def samples6 : List (Cplx Int) :=
  [⟨10, 0⟩, ⟨20, 0⟩, ⟨30, 0⟩, ⟨40, 0⟩, ⟨50, 0⟩, ⟨60, 0⟩]

/-- Four real samples, a full window for `eng4r`. -/
def samples4 : List (Cplx Int) :=
  [⟨1, 0⟩, ⟨2, 0⟩, ⟨3, 0⟩, ⟨4, 0⟩]

end Fixtures

--
-- Supporting lemmas.
--

namespace Impl

variable {F : Type} [CommRing F] [DecidableEq F]

/-- A push of a sample that violates the trait fails without any state change
(the check in src/src/sdft.cpp lines 233-235 precedes every write). -/
theorem push_next_sample_eq_err (s : Impl F) (ns : Cplx F)
    (h : s.matches_signal_trait ns = false) :
    s.push_next_sample ns = (sdft_Error.SIGNAL_TRAIT_VIOLATION, s) := by
  unfold push_next_sample
  rw [h]
  rfl

/-- Closed form of a successful push. -/
theorem push_next_sample_eq_ok (s : Impl F) (ns : Cplx F)
    (h : s.matches_signal_trait ns = true) :
    s.push_next_sample ns =
      (sdft_Error.NO_ERROR,
        { s with
          spectrum := upd_spectrum (ns - s.signal.getD s.signal_index 0)
            s.phase_offsets s.spectrum s.n_bins
          signal := s.signal.set s.signal_index
            (s.signal.getD s.signal_index 0 + (ns - s.signal.getD s.signal_index 0))
          signal_index :=
            if s.signal_index + 1 = s.number_of_samples then 0
            else s.signal_index + 1 }) := by
  unfold push_next_sample
  rw [h]
  rfl

theorem upd_spectrum_length (delta : Cplx F) (po sp : List (Cplx F)) (nb : Nat) :
    (upd_spectrum delta po sp nb).length = sp.length := by
  simp [upd_spectrum]

theorem upd_spectrum_getD (delta : Cplx F) (po sp : List (Cplx F)) (nb k : Nat)
    (hk : k < sp.length) :
    (upd_spectrum delta po sp nb).getD k 0 =
      if k < nb then (sp.getD k 0 + delta) * po.getD k 0 else sp.getD k 0 := by
  unfold upd_spectrum
  rw [List.getD_eq_getElem _ _ (by simpa using hk)]
  simp

theorem upd_spectrum_getD_of_le (delta : Cplx F) (po sp : List (Cplx F))
    (nb k : Nat) (hk : sp.length ≤ k) :
    (upd_spectrum delta po sp nb).getD k 0 = sp.getD k 0 := by
  rw [List.getD_eq_default, List.getD_eq_default]
  · exact hk
  · simpa [upd_spectrum_length] using hk

end Impl

/-- After `unshift_and_get_signal` the cursor is 0 (both branches of
src/src/sdft.cpp lines 261-281). -/
theorem Impl.unshift_signal_index {F : Type} [CommRing F] [DecidableEq F]
    (s : Impl F) : s.unshift_and_get_signal.signal_index = 0 := by
  unfold unshift_and_get_signal
  by_cases h : s.signal_index = 0 <;> simp [h]

/-- `unshift_and_get_signal` is the identity when the cursor is already 0. -/
theorem Impl.unshift_of_index_zero {F : Type} [CommRing F] [DecidableEq F]
    (s : Impl F) (h : s.signal_index = 0) : s.unshift_and_get_signal = s := by
  unfold unshift_and_get_signal
  simp [h]

--
-- C9.
--

/-- C9: for every Window Engine state, calling `unshift_and_get_window` twice
in a row with no intervening push returns the identical buffer content both
times (the second call finds `write_index = 0` and changes nothing); in
particular the operation is the identity on the state — window buffer and
`write_index` included — whenever `write_index` is already 0. -/
theorem claim_C9_unshift_idempotent {F : Type} [CommRing F] [DecidableEq F]
    (s : Impl F) :
    s.unshift_and_get_signal.unshift_and_get_signal = s.unshift_and_get_signal
      ∧ (s.signal_index = 0 → s.unshift_and_get_signal = s) := by
  constructor
  · exact Impl.unshift_of_index_zero _ (Impl.unshift_signal_index s)
  · exact Impl.unshift_of_index_zero s

/-- Witness for C9 at a concrete state: a zero-filled engine has
`write_index = 0`, and on it both facts of `claim_C9_unshift_idempotent`
hold with the inner hypothesis discharged. -/
theorem claim_C9_unshift_idempotent_witness :
    Fixtures.eng4.unshift_and_get_signal.unshift_and_get_signal
        = Fixtures.eng4.unshift_and_get_signal
      ∧ Fixtures.eng4.signal_index = 0
      ∧ Fixtures.eng4.unshift_and_get_signal = Fixtures.eng4 :=
  ⟨(claim_C9_unshift_idempotent Fixtures.eng4).1, by decide,
    (claim_C9_unshift_idempotent Fixtures.eng4).2 (by decide)⟩

--
-- C1.
--

/-- C1 (code bug): pushing `10,20,30,40,50,60` into a zero-filled window of
size 4 (so `write_index` ends at `6 mod 4 = 2`) and then calling
`unshift_and_get_window` yields the buffer `[30,60,50,40]` — not the last four
samples in chronological order `[30,40,50,60]` that the claim (and the
documentation of `sdft_unshift_and_get_signal` in include/sdft/sdft.h)
promises.  The single-cycle in-place rotation of
`Impl::unshift_and_get_signal` (src/src/sdft.cpp lines 256-284) revisits the
same cycle repeatedly whenever `gcd(write_index, window_size) > 1` instead of
visiting every slot once. -/
theorem claim_C1_unshift_wrong_order :
    (implRun Fixtures.eng4 Fixtures.samples6).unshift_and_get_signal.signal
        = [⟨30, 0⟩, ⟨60, 0⟩, ⟨50, 0⟩, ⟨40, 0⟩]
      ∧ lastN 4 Fixtures.samples6 = [⟨30, 0⟩, ⟨40, 0⟩, ⟨50, 0⟩, ⟨60, 0⟩]
      ∧ (implRun Fixtures.eng4 Fixtures.samples6).unshift_and_get_signal.signal
        ≠ lastN 4 Fixtures.samples6 := by
  refine ⟨by decide, by decide, by decide⟩

--
-- C2.
--

/-- C2 (code bug): same defect observed through the Combiner.  After pushing
`10,20,30,40,50,60` into a Combiner of window size 4 built over two
zero-filled engines, the push count 6 exceeds the window size, yet the window
exposed by `unshift_and_get_window` is `[30,60,50,40]`, not the true last four
samples `[30,40,50,60]`: the `cycle_counter` is 6, the second (authoritative)
engine has `write_index = 2`, and the broken rotation of
`Impl::unshift_and_get_signal` garbles its buffer.  (In exact arithmetic the
spectrum half of the claim does hold — the combiner characterization proved
for the invariant claim shows the exposed engine always carries the last four
samples in circular order; the window half is what fails.) -/
theorem claim_C2_combined_window_wrong_order :
    (combRun (Combined.init Fixtures.eng4 Fixtures.eng4)
        Fixtures.samples6).unshift_window
        = [⟨30, 0⟩, ⟨60, 0⟩, ⟨50, 0⟩, ⟨40, 0⟩]
      ∧ (combRun (Combined.init Fixtures.eng4 Fixtures.eng4)
        Fixtures.samples6).unshift_window ≠ lastN 4 Fixtures.samples6 := by
  refine ⟨by decide, by decide⟩

--
-- C4.
--

/-- C4 (counterexample): a Combiner push can report `SignalTraitViolation` and
still mutate state.  Window size 1, trait real-only, one good sample pushed,
so `cycle_counter = 1 = window_size`: the next push first performs the
scheduled `_first->clear()` (src/src/sdft.cpp lines 308-309) and only then
lets `Impl::push_next_sample` reject the bad sample `j*7` — the returned state
differs from the state before the call (the first engine's window lost its
sample). -/
theorem claim_C4_counterexample :
    ((combRun (Combined.init Fixtures.eng1r Fixtures.eng1r)
        [⟨5, 0⟩]).push_next_sample ⟨0, 7⟩).1 = sdft_Error.SIGNAL_TRAIT_VIOLATION
      ∧ ((combRun (Combined.init Fixtures.eng1r Fixtures.eng1r)
        [⟨5, 0⟩]).push_next_sample ⟨0, 7⟩).2
        ≠ combRun (Combined.init Fixtures.eng1r Fixtures.eng1r) [⟨5, 0⟩] := by
  refine ⟨by decide, by decide⟩

/-- C4 (amended): a standalone Window Engine never mutates state when it
reports `SignalTraitViolation`; a Combiner does not either, provided its
`cycle_counter` is at neither reset boundary (`window_size` or
`2 * window_size`) — at a boundary the scheduled clear of an inner engine
precedes the validation of the sample, so the cleared engine (and, at the
`2 * window_size` boundary, the cycle counter) changes even though
`SignalTraitViolation` is returned. -/
theorem claim_C4_amended {F : Type} [CommRing F] [DecidableEq F] :
    (∀ (s : Impl F) (ns : Cplx F), s.matches_signal_trait ns = false →
        s.push_next_sample ns = (sdft_Error.SIGNAL_TRAIT_VIOLATION, s))
      ∧ (∀ (c : Combined F) (ns : Cplx F),
          traitOk c.first.signal_traits ns = false →
          c.clear_counter ≠ c.number_of_samples →
          c.clear_counter ≠ 2 * c.number_of_samples →
          c.push_next_sample ns = (sdft_Error.SIGNAL_TRAIT_VIOLATION, c)) := by
  constructor
  · exact fun s ns h => Impl.push_next_sample_eq_err s ns h
  · intro c ns hok h1 h2
    unfold Combined.push_next_sample
    simp only [if_neg h1, if_neg h2]
    rw [Impl.push_next_sample_eq_err c.first ns hok]
    simp

/-- Witness for C4 (amended) at concrete inputs: a freshly built window-size-1
real-only Combiner (counter 0, boundaries 1 and 2 not hit) and its first inner
engine both reject the sample `j*7` and are returned unchanged. -/
theorem claim_C4_amended_witness :
    Fixtures.eng1r.matches_signal_trait ⟨0, 7⟩ = false
      ∧ Fixtures.eng1r.push_next_sample ⟨0, 7⟩
        = (sdft_Error.SIGNAL_TRAIT_VIOLATION, Fixtures.eng1r)
      ∧ (Combined.init Fixtures.eng1r Fixtures.eng1r).push_next_sample ⟨0, 7⟩
        = (sdft_Error.SIGNAL_TRAIT_VIOLATION,
          Combined.init Fixtures.eng1r Fixtures.eng1r) :=
  ⟨by decide,
    (claim_C4_amended.1 Fixtures.eng1r ⟨0, 7⟩ (by decide)),
    (claim_C4_amended.2 (Combined.init Fixtures.eng1r Fixtures.eng1r) ⟨0, 7⟩
      (by decide) (by decide) (by decide))⟩

--
-- C7.
--

/-- C7: `combine_with` fails with `NotCombinable` whenever the two engines
differ in precision (template instantiation), window size or signal trait —
and produces no combined state, both inputs untouched; when all three match
it succeeds with a Combiner whose first engine is `self` exactly as it was
(and hence, with the counter at 0, `self`'s content is the initially exposed,
authoritative state), and whose second engine is `other` with window and
spectrum zeroed and cursor rewound. -/
theorem claim_C7_combine_with {F : Type} [CommRing F] [DecidableEq F]
    (s o : Impl F) :
    (¬(s.precision = o.precision ∧ o.number_of_samples = s.number_of_samples
        ∧ o.signal_traits = s.signal_traits) →
      State.combine_with (State.impl s) (State.impl o)
        = (sdft_Error.NOT_COMBINABLE, none))
    ∧ (s.precision = o.precision → o.number_of_samples = s.number_of_samples →
      o.signal_traits = s.signal_traits →
        State.combine_with (State.impl s) (State.impl o)
          = (sdft_Error.NO_ERROR, some (Combined.init s o))
        ∧ (Combined.init s o).first = s
        ∧ (Combined.init s o).second = o.clear
        ∧ (Combined.init s o).clear_counter = 0
        ∧ o.clear.signal = List.replicate o.number_of_samples 0
        ∧ o.clear.spectrum = List.replicate o.number_of_samples 0
        ∧ o.clear.signal_index = 0
        ∧ (Combined.init s o).get_spectrum = s.spectrum) := by
  constructor
  · intro h
    simp only [State.combine_with]
    rw [if_neg h]
  · intro h1 h2 h3
    refine ⟨?_, rfl, rfl, rfl, rfl, rfl, rfl, ?_⟩
    · simp only [State.combine_with]
      rw [if_pos ⟨h1, h2, h3⟩]
    · unfold Combined.get_spectrum
      simp [Combined.init]

/-- Witness for C7 at concrete inputs: a size-4 full-trait engine and a size-1
real-only engine are not combinable; two size-1 real-only engines are, and the
resulting Combiner is as `claim_C7_combine_with` states. -/
theorem claim_C7_combine_with_witness :
    State.combine_with (State.impl Fixtures.eng4) (State.impl Fixtures.eng1r)
        = (sdft_Error.NOT_COMBINABLE, none)
      ∧ State.combine_with (State.impl Fixtures.eng1r) (State.impl Fixtures.eng1r)
        = (sdft_Error.NO_ERROR, some (Combined.init Fixtures.eng1r Fixtures.eng1r))
      ∧ (Combined.init Fixtures.eng1r Fixtures.eng1r).get_spectrum
        = Fixtures.eng1r.spectrum :=
  ⟨(claim_C7_combine_with Fixtures.eng4 Fixtures.eng1r).1 (by decide),
    ((claim_C7_combine_with Fixtures.eng1r Fixtures.eng1r).2 rfl rfl rfl).1,
    ((claim_C7_combine_with Fixtures.eng1r Fixtures.eng1r).2 rfl rfl rfl).2.2.2.2.2.2.2⟩

--
-- C10.
--

/-- C10: for every pair of combinable engines (identical precision, window
size and signal trait), `sdft_init_combine` returns `Ok` unconditionally,
because `Combined::validate` (src/src/sdft.cpp lines 293-297) always reports
success: no validation of the inner engines happens on the combine path —
there are no hypotheses here about window size or window contents, so a
window size of 0 or trait-violating initial contents are never reported. -/
theorem claim_C10_combine_skips_validation {F : Type} [CommRing F]
    [DecidableEq F] (s o : Impl F) (h1 : s.precision = o.precision)
    (h2 : o.number_of_samples = s.number_of_samples)
    (h3 : o.signal_traits = s.signal_traits) :
    sdft_init_combine (State.impl s) (State.impl o)
        = (sdft_Error.NO_ERROR, some (Combined.init s o))
      ∧ (State.comb (Combined.init s o)).validate = sdft_Error.NO_ERROR := by
  simp only [sdft_init_combine, State.combine_with]
  rw [if_pos ⟨h1, h2, h3⟩]
  exact ⟨rfl, rfl⟩

/-- Witness for C10 at a concrete input: combining two window-size-0 engines
succeeds even though standalone validation reports `WindowTooShort`. -/
theorem claim_C10_combine_skips_validation_witness :
    sdft_init_combine (State.impl Fixtures.eng0) (State.impl Fixtures.eng0)
        = (sdft_Error.NO_ERROR, some (Combined.init Fixtures.eng0 Fixtures.eng0))
      ∧ Fixtures.eng0.validate = sdft_Error.WINDOW_TOO_SHORT :=
  ⟨(claim_C10_combine_skips_validation Fixtures.eng0 Fixtures.eng0
      rfl rfl rfl).1, by decide⟩

/-- The wrap-around `if ++_signal_index == n then 0` of a push is the modular
increment. -/
theorem wrap_index_eq_mod (idx n : Nat) (h : idx < n) :
    (if idx + 1 = n then 0 else idx + 1) = (idx + 1) % n := by
  by_cases he : idx + 1 = n
  · rw [if_pos he, he, Nat.mod_self]
  · rw [if_neg he, Nat.mod_eq_of_lt (Nat.lt_of_le_of_ne (Nat.succ_le_of_lt h) he)]

--
-- C6.
--

/-- C6: on a well-formed engine a push of a sample satisfying the signal trait
returns `Ok` and performs exactly the four specified steps with
`delta = sample - window[write_index]`: every retained bin `k < n_bins` (all
`window_size` bins under the full trait, the first `window_size / 2` bins
otherwise) becomes `(spectrum[k] + delta) * phase_offsets[k]` while bins at
`n_bins` and above keep their value, the window slot at `write_index` becomes
the sample (the source writes `window[write_index] += delta`, equal to the
sample in exact arithmetic), the cursor advances to
`(write_index + 1) % window_size`, and no other state changes. -/
theorem claim_C6_push_steps {F : Type} [CommRing F] [DecidableEq F]
    (s : Impl F) (ns : Cplx F) (hwf : s.wf)
    (hok : s.matches_signal_trait ns = true) :
    (s.push_next_sample ns).1 = sdft_Error.NO_ERROR
      ∧ s.n_bins = (if s.signal_traits = SignalTraits.real_and_imag
          then s.number_of_samples else s.number_of_samples / 2)
      ∧ (∀ k, k < s.n_bins →
          (s.push_next_sample ns).2.spectrum.getD k 0
            = (s.spectrum.getD k 0 + (ns - s.signal.getD s.signal_index 0))
              * s.phase_offsets.getD k 0)
      ∧ (∀ k, s.n_bins ≤ k →
          (s.push_next_sample ns).2.spectrum.getD k 0 = s.spectrum.getD k 0)
      ∧ (s.push_next_sample ns).2.signal = s.signal.set s.signal_index ns
      ∧ (s.push_next_sample ns).2.signal_index
        = (s.signal_index + 1) % s.number_of_samples
      ∧ (s.push_next_sample ns).2.spectrum.length = s.spectrum.length
      ∧ (s.push_next_sample ns).2.phase_offsets = s.phase_offsets
      ∧ (s.push_next_sample ns).2.number_of_samples = s.number_of_samples
      ∧ (s.push_next_sample ns).2.signal_traits = s.signal_traits
      ∧ (s.push_next_sample ns).2.precision = s.precision := by
  obtain ⟨hsig, hspec, hidx⟩ := hwf
  rw [Impl.push_next_sample_eq_ok s ns hok]
  refine ⟨rfl, rfl, ?_, ?_, ?_, ?_, ?_, rfl, rfl, rfl, rfl⟩
  · intro k hk
    have hkn : k < s.number_of_samples := by
      have : s.n_bins ≤ s.number_of_samples := by
        unfold Impl.n_bins
        split
        · exact Nat.le_refl _
        · exact Nat.div_le_self _ _
      exact Nat.lt_of_lt_of_le hk this
    rw [Impl.upd_spectrum_getD _ _ _ _ _ (by rw [hspec]; exact hkn), if_pos hk]
  · intro k hk
    by_cases hks : k < s.spectrum.length
    · rw [Impl.upd_spectrum_getD _ _ _ _ _ hks, if_neg (by omega)]
    · exact Impl.upd_spectrum_getD_of_le _ _ _ _ _ (Nat.le_of_not_lt hks)
  · have : s.signal.getD s.signal_index 0
        + (ns - s.signal.getD s.signal_index 0) = ns := by ring
    rw [this]
  · exact wrap_index_eq_mod _ _ hidx
  · exact Impl.upd_spectrum_length _ _ _ _

/-- Witness for C6 at a concrete input: the window-size-4 real-only engine,
which is well-formed, accepts the real sample 7 and the conclusion holds
(spot-checked here at bins 0, 1 and 2 — under the real-only trait
`n_bins = 2`, so bin 2 is untouched). -/
theorem claim_C6_push_steps_witness :
    Fixtures.eng4r.wf
      ∧ (Fixtures.eng4r.push_next_sample ⟨7, 0⟩).1 = sdft_Error.NO_ERROR
      ∧ (Fixtures.eng4r.push_next_sample ⟨7, 0⟩).2.spectrum.getD 1 0
        = (Fixtures.eng4r.spectrum.getD 1 0
          + (⟨7, 0⟩ - Fixtures.eng4r.signal.getD Fixtures.eng4r.signal_index 0))
          * Fixtures.eng4r.phase_offsets.getD 1 0
      ∧ (Fixtures.eng4r.push_next_sample ⟨7, 0⟩).2.spectrum.getD 2 0
        = Fixtures.eng4r.spectrum.getD 2 0
      ∧ (Fixtures.eng4r.push_next_sample ⟨7, 0⟩).2.signal
        = Fixtures.eng4r.signal.set Fixtures.eng4r.signal_index ⟨7, 0⟩
      ∧ (Fixtures.eng4r.push_next_sample ⟨7, 0⟩).2.signal_index
        = (Fixtures.eng4r.signal_index + 1) % Fixtures.eng4r.number_of_samples := by
  have h := claim_C6_push_steps Fixtures.eng4r ⟨7, 0⟩ (by decide) (by decide)
  exact ⟨by decide, h.1, h.2.2.1 1 (by decide), h.2.2.2.1 2 (by decide),
    h.2.2.2.2.1, h.2.2.2.2.2.1⟩

/-- Bridging indexed reads of a buffer of known length to its members. -/
theorem exists_getD_false_iff_mem {F : Type} [CommRing F] [DecidableEq F]
    (p : Cplx F → Bool) (l : List (Cplx F)) :
    (∃ i, i < l.length ∧ p (l.getD i 0) = false) ↔ ∃ x ∈ l, p x = false := by
  constructor
  · rintro ⟨i, hi, hp⟩
    refine ⟨l.getD i 0, ?_, hp⟩
    rw [List.getD_eq_getElem _ _ hi]
    exact List.getElem_mem hi
  · rintro ⟨x, hx, hp⟩
    obtain ⟨i, hi, rfl⟩ := List.mem_iff_getElem.mp hx
    exact ⟨i, hi, by rw [List.getD_eq_getElem _ _ hi]; exact hp⟩

/-- The element loop of `Impl::validate` fails exactly when the buffer holds a
trait-violating element. -/
theorem all_range_traitOk_false_iff {F : Type} [CommRing F] [DecidableEq F]
    (tr : SignalTraits) (sig : List (Cplx F)) (n : Nat) (hl : sig.length = n) :
    (((List.range n).all (fun i => traitOk tr (sig.getD i 0))) = false)
      ↔ ∃ x ∈ sig, traitOk tr x = false := by
  rw [← exists_getD_false_iff_mem (traitOk tr) sig]
  constructor
  · intro h
    obtain ⟨i, hi, hp⟩ :
        ∃ i ∈ List.range n, ¬(traitOk tr (sig.getD i 0) = true) := by
      by_contra hc
      push_neg at hc
      have hall : ((List.range n).all
          (fun i => traitOk tr (sig.getD i 0))) = true := List.all_eq_true.mpr hc
      rw [hall] at h
      cases h
    refine ⟨i, by rw [hl]; exact List.mem_range.mp hi, ?_⟩
    revert hp
    cases traitOk tr (sig.getD i 0) <;> simp
  · rintro ⟨i, hi, hp⟩
    by_contra h
    have hall : ((List.range n).all
        (fun i => traitOk tr (sig.getD i 0))) = true := by
      revert h
      cases (List.range n).all (fun i => traitOk tr (sig.getD i 0)) <;> simp
    have := List.all_eq_true.mp hall i (List.mem_range.mpr (by omega))
    rw [this] at hp
    cases hp

--
-- C8.
--

/-- C8: `validate` returns `WindowTooShort` exactly when `window_size < 1`;
otherwise it returns `SignalTraitViolation` exactly when some element
currently in the window buffer violates the signal trait; otherwise `Ok` —
and `sdft_init_from_buffers` returns exactly this validation result while
handing back the caller-supplied window and spectrum buffers untouched. -/
theorem claim_C8_init_validate {F : Type} [CommRing F] [DecidableEq F]
    (ω : Cplx F) (p : FloatPrecision) (sig spec : List (Cplx F)) (n : Nat)
    (tr : SignalTraits) (hl : sig.length = n) :
    (sdft_init_from_buffers ω p sig spec n tr).2.signal = sig
      ∧ (sdft_init_from_buffers ω p sig spec n tr).2.spectrum = spec
      ∧ (sdft_init_from_buffers ω p sig spec n tr).1
        = (sdft_init_from_buffers ω p sig spec n tr).2.validate
      ∧ ((sdft_init_from_buffers ω p sig spec n tr).1
          = sdft_Error.WINDOW_TOO_SHORT ↔ n < 1)
      ∧ (1 ≤ n →
        ((sdft_init_from_buffers ω p sig spec n tr).1
            = sdft_Error.SIGNAL_TRAIT_VIOLATION
          ↔ ∃ x ∈ sig, traitOk tr x = false))
      ∧ (1 ≤ n → (∀ x ∈ sig, traitOk tr x = true) →
        (sdft_init_from_buffers ω p sig spec n tr).1 = sdft_Error.NO_ERROR) := by
  have hred : (sdft_init_from_buffers ω p sig spec n tr).1
      = (if n < 1 then sdft_Error.WINDOW_TOO_SHORT
        else if (List.range n).all (fun i => traitOk tr (sig.getD i 0)) then
          sdft_Error.NO_ERROR
        else sdft_Error.SIGNAL_TRAIT_VIOLATION) := rfl
  refine ⟨rfl, rfl, rfl, ?_, ?_, ?_⟩
  · rw [hred]
    constructor
    · intro h
      by_contra hn
      rw [if_neg hn] at h
      revert h
      split <;> intro h <;> cases h
    · intro h
      rw [if_pos h]
  · intro hn
    rw [hred, if_neg (by omega), ← all_range_traitOk_false_iff tr sig n hl]
    by_cases he : ((List.range n).all (fun i => traitOk tr (sig.getD i 0))) = true
    · rw [if_pos he, he]
      simp
    · have he' : ((List.range n).all
          (fun i => traitOk tr (sig.getD i 0))) = false := by
        revert he
        cases (List.range n).all (fun i => traitOk tr (sig.getD i 0)) <;> simp
      rw [if_neg he, he']
      simp
  · intro hn hall
    rw [hred, if_neg (by omega), if_pos ?_]
    refine List.all_eq_true.mpr (fun i hi => ?_)
    have hilt : i < sig.length := by
      rw [hl]
      exact List.mem_range.mp hi
    apply hall
    rw [List.getD_eq_getElem _ _ hilt]
    exact List.getElem_mem hilt

/-- Witness for C8 at concrete inputs: a length-4 buffer containing the
sample `j*5` under the real-only trait is reported as a trait violation by
`sdft_init_from_buffers`, which still hands back the buffers unchanged. -/
theorem claim_C8_init_validate_witness :
    (sdft_init_from_buffers Fixtures.ω4 FloatPrecision.double
        [⟨1, 0⟩, ⟨0, 5⟩, ⟨3, 0⟩, ⟨4, 0⟩] (List.replicate 4 0) 4
        SignalTraits.real_only).2.signal = [⟨1, 0⟩, ⟨0, 5⟩, ⟨3, 0⟩, ⟨4, 0⟩]
      ∧ ((sdft_init_from_buffers Fixtures.ω4 FloatPrecision.double
        [⟨1, 0⟩, ⟨0, 5⟩, ⟨3, 0⟩, ⟨4, 0⟩] (List.replicate 4 0) 4
        SignalTraits.real_only).1 = sdft_Error.WINDOW_TOO_SHORT ↔ (4 : Nat) < 1)
      ∧ (sdft_init_from_buffers Fixtures.ω4 FloatPrecision.double
        [⟨1, 0⟩, ⟨0, 5⟩, ⟨3, 0⟩, ⟨4, 0⟩] (List.replicate 4 0) 4
        SignalTraits.real_only).1 = sdft_Error.SIGNAL_TRAIT_VIOLATION := by
  have h := claim_C8_init_validate Fixtures.ω4 FloatPrecision.double
    [⟨1, 0⟩, ⟨0, 5⟩, ⟨3, 0⟩, ⟨4, 0⟩] (List.replicate 4 0) 4
    SignalTraits.real_only (by decide)
  refine ⟨h.1, h.2.2.2.1, ?_⟩
  rw [h.2.2.2.2.1 (by decide)]
  exact ⟨⟨0, 5⟩, by decide, by decide⟩

--
-- Roots of unity: the facts about `ω` used by the spectral claims, all
-- consequences of `ω ^ n = 1` (true of the exact value `exp(j*2*pi/n)`).
--

theorem pow_mod_of_root {F : Type} [CommRing F] {ω : Cplx F} {n : Nat}
    (hroot : ω ^ n = 1) (a : Nat) : ω ^ a = ω ^ (a % n) := by
  conv_lhs => rw [← Nat.div_add_mod a n]
  rw [pow_add, pow_mul, hroot, one_pow, one_mul]

theorem isUnit_of_root {F : Type} [CommRing F] {ω : Cplx F} {n : Nat}
    (hn : 1 ≤ n) (hroot : ω ^ n = 1) : IsUnit ω := by
  refine isUnit_of_mul_eq_one ω (ω ^ (n - 1)) ?_
  rw [← pow_succ', Nat.sub_add_cancel hn]
  exact hroot

/-- Two powers of a root of unity agree when multiplying both by a common
power yields 1. -/
theorem pow_eq_of_mul_pow_eq_one {F : Type} [CommRing F] {ω : Cplx F} {n : Nat}
    (hn : 1 ≤ n) (hroot : ω ^ n = 1) {a b m : Nat}
    (ha : ω ^ a * ω ^ m = 1) (hb : ω ^ b * ω ^ m = 1) : ω ^ a = ω ^ b := by
  have hu : IsUnit (ω ^ m) := (isUnit_of_root hn hroot).pow m
  exact hu.mul_right_cancel (ha.trans hb.symm)

--
-- Small list access lemmas.
--

theorem getD_set_zero {F : Type} [CommRing F] (l : List (Cplx F)) (i m : Nat)
    (v : Cplx F) (hi : i < l.length) :
    (l.set i v).getD m 0 = if m = i then v else l.getD m 0 := by
  by_cases hm : m < l.length
  · rw [List.getD_eq_getElem _ _ (by simpa using hm),
      List.getElem_set]
    by_cases he : i = m
    · subst he
      simp
    · rw [if_neg he, if_neg (fun hc => he hc.symm), List.getD_eq_getElem _ _ hm]
  · rw [List.getD_eq_default _ _ (by simpa using Nat.le_of_not_lt hm),
      List.getD_eq_default _ _ (Nat.le_of_not_lt hm),
      if_neg (by omega)]

theorem getD_replicate_zero {F : Type} [CommRing F] (n m : Nat) :
    (List.replicate n (0 : Cplx F)).getD m 0 = 0 := by
  by_cases hm : m < n
  · rw [List.getD_eq_getElem _ _ (by simpa using hm)]
    exact List.getElem_replicate _ _
  · rw [List.getD_eq_default _ _ (by simpa using Nat.le_of_not_lt hm)]

theorem getD_range_map_pow {F : Type} [CommRing F] (ω : Cplx F) (n k : Nat)
    (hk : k < n) :
    ((List.range n).map (fun i => ω ^ i)).getD k 0 = ω ^ k := by
  rw [List.getD_eq_getElem _ _ (by simpa using hk)]
  simp

/-- The number of retained bins never exceeds the window size. -/
theorem Impl.n_bins_le {F : Type} [CommRing F] [DecidableEq F] (s : Impl F) :
    s.n_bins ≤ s.number_of_samples := by
  unfold Impl.n_bins
  split
  · exact Nat.le_refl _
  · exact Nat.div_le_self _ _

/-- `n_bins` only reads the trait and the window size, which a push never
changes. -/
theorem Impl.n_bins_pushState {F : Type} [CommRing F] [DecidableEq F]
    (s : Impl F) (ns : Cplx F) : (s.pushState ns).n_bins = s.n_bins := by
  unfold Impl.pushState Impl.push_next_sample
  split <;> rfl

/-- What the recurrence accumulates equals the naive DFT bin, given the
defining property of the root of unity. -/
theorem sdftSum_eq_dftBin {F : Type} [CommRing F] (ω : Cplx F) (n : Nat)
    (hn : 1 ≤ n) (hroot : ω ^ n = 1) (xs : List (Cplx F)) (k : Nat) :
    sdftSum (ω ^ k) n xs = dftBin ω n xs k := by
  unfold sdftSum dftBin
  refine Finset.sum_congr rfl (fun t ht => ?_)
  have htn : t < n := Finset.mem_range.mp ht
  congr 1
  rw [← pow_mul]
  refine pow_eq_of_mul_pow_eq_one hn hroot
    (a := k * (n - t)) (b := (n - k * t % n) % n) (m := k * t) ?_ ?_
  · rw [← pow_add]
    have h1 : k * (n - t) + k * t = n * k := by
      rw [← Nat.mul_add, Nat.sub_add_cancel (Nat.le_of_lt htn)]
      ring
    rw [h1, pow_mul, hroot, one_pow]
  · rw [← pow_add, pow_mod_of_root hroot]
    have hqr := Nat.div_add_mod (k * t) n
    have hr : k * t % n < n := Nat.mod_lt _ (by omega)
    have hnq : n * (1 + k * t / n) = n + n * (k * t / n) := by ring
    have h1 : n - k * t % n + k * t = n * (1 + k * t / n) := by omega
    rw [Nat.mod_add_mod, h1, Nat.mul_mod_right, pow_zero]

/-- Splitting one push off a prefix run. -/
theorem implRun_take_succ {F : Type} [CommRing F] [DecidableEq F] (s : Impl F)
    (xs : List (Cplx F)) (j : Nat) (hj : j < xs.length) :
    implRun s (xs.take (j + 1))
      = Impl.pushState (implRun s (xs.take j)) (xs.getD j 0) := by
  have h1 : xs.take (j + 1) = xs.take j ++ [xs.getD j 0] := by
    rw [List.take_succ, List.getElem?_eq_getElem hj]
    rw [List.getD_eq_getElem _ _ hj]
    rfl
  rw [h1]
  unfold implRun
  rw [List.foldl_append]
  rfl

/-- The state of a fresh engine after absorbing the first `j` samples of a
trait-respecting stream `xs`, `j` at most the window size: every buffer keeps
its length, the cursor is at `j % n`, slot `i` of the window holds `xs i` for
`i < j` and is still zero above, and every retained bin `k` holds the partial
recurrence value `sum over t < j of xs t * (ω^k) ^ (j - t)`. -/
theorem implRun_zero_take_inv {F : Type} [CommRing F] [DecidableEq F]
    (ω : Cplx F) (p : FloatPrecision) (n : Nat) (tr : SignalTraits)
    (xs : List (Cplx F)) (hlen : xs.length = n)
    (hok : ∀ x ∈ xs, traitOk tr x = true) :
    ∀ j, j ≤ n →
      (implRun (zeroEngine ω p n tr) (xs.take j)).number_of_samples = n
      ∧ (implRun (zeroEngine ω p n tr) (xs.take j)).signal_traits = tr
      ∧ (implRun (zeroEngine ω p n tr) (xs.take j)).phase_offsets
        = (List.range n).map (fun i => ω ^ i)
      ∧ (implRun (zeroEngine ω p n tr) (xs.take j)).signal.length = n
      ∧ (implRun (zeroEngine ω p n tr) (xs.take j)).spectrum.length = n
      ∧ (implRun (zeroEngine ω p n tr) (xs.take j)).signal_index = j % n
      ∧ (∀ i, i < n → (implRun (zeroEngine ω p n tr) (xs.take j)).signal.getD i 0
          = if i < j then xs.getD i 0 else 0)
      ∧ (∀ k, k < (implRun (zeroEngine ω p n tr) (xs.take j)).n_bins →
          (implRun (zeroEngine ω p n tr) (xs.take j)).spectrum.getD k 0
            = ∑ t ∈ Finset.range j, xs.getD t 0 * (ω ^ k) ^ (j - t)) := by
  intro j
  induction j with
  | zero =>
    intro _
    refine ⟨rfl, rfl, rfl, by simp [implRun, zeroEngine, Impl.init],
      by simp [implRun, zeroEngine, Impl.init],
      by simp [implRun, zeroEngine, Impl.init], ?_, ?_⟩
    · intro i _
      simp only [List.take_zero]
      show (List.replicate n (0 : Cplx F)).getD i 0 = _
      rw [getD_replicate_zero, if_neg (by omega)]
    · intro k _
      simp only [List.take_zero, Finset.range_zero, Finset.sum_empty]
      show (List.replicate n (0 : Cplx F)).getD k 0 = 0
      rw [getD_replicate_zero]
  | succ j ih =>
    intro hj1
    have hjn : j < n := by omega
    have hih := ih (by omega)
    obtain ⟨ihn, ihtr, ihpo, ihsl, ihcl, ihidx, ihsig, ihspec⟩ := hih
    have hjx : j < xs.length := by omega
    rw [implRun_take_succ _ xs j hjx]
    set sj := implRun (zeroEngine ω p n tr) (xs.take j) with hsj
    have hmem : xs.getD j 0 ∈ xs := by
      rw [List.getD_eq_getElem _ _ hjx]
      exact List.getElem_mem hjx
    have hmatch : sj.matches_signal_trait (xs.getD j 0) = true := by
      unfold Impl.matches_signal_trait
      rw [ihtr]
      exact hok _ hmem
    have hidxj : sj.signal_index = j := by
      rw [ihidx, Nat.mod_eq_of_lt hjn]
    have hold : sj.signal.getD sj.signal_index 0 = 0 := by
      rw [hidxj, ihsig j hjn, if_neg (by omega)]
    have hpush : Impl.pushState sj (xs.getD j 0)
        = { sj with
            spectrum := Impl.upd_spectrum (xs.getD j 0 - sj.signal.getD sj.signal_index 0)
              sj.phase_offsets sj.spectrum sj.n_bins
            signal := sj.signal.set sj.signal_index
              (sj.signal.getD sj.signal_index 0
                + (xs.getD j 0 - sj.signal.getD sj.signal_index 0))
            signal_index :=
              if sj.signal_index + 1 = sj.number_of_samples then 0
              else sj.signal_index + 1 } := by
      unfold Impl.pushState
      rw [Impl.push_next_sample_eq_ok sj _ hmatch]
    have hnbins : (Impl.pushState sj (xs.getD j 0)).n_bins = sj.n_bins :=
      Impl.n_bins_pushState sj _
    have hnble : sj.n_bins ≤ n := by
      have := Impl.n_bins_le sj
      omega
    refine ⟨?_, ?_, ?_, ?_, ?_, ?_, ?_, ?_⟩
    · rw [hpush]
      exact ihn
    · rw [hpush]
      exact ihtr
    · rw [hpush]
      exact ihpo
    · rw [hpush]
      show (sj.signal.set _ _).length = n
      rw [List.length_set]
      exact ihsl
    · rw [hpush]
      show (Impl.upd_spectrum _ _ _ _).length = n
      rw [Impl.upd_spectrum_length]
      exact ihcl
    · rw [hpush]
      show (if sj.signal_index + 1 = sj.number_of_samples then 0
        else sj.signal_index + 1) = (j + 1) % n
      rw [hidxj, ihn]
      exact wrap_index_eq_mod j n hjn
    · intro i hi
      rw [hpush]
      show (sj.signal.set sj.signal_index _).getD i 0 = _
      rw [getD_set_zero _ _ _ _ (by rw [ihsl]; rw [hidxj]; exact hjn), hidxj]
      by_cases hij : i = j
      · subst hij
        rw [if_pos rfl, if_pos (by omega)]
        ring
      · rw [if_neg hij, ihsig i hi]
        by_cases hlt : i < j
        · rw [if_pos hlt, if_pos (by omega)]
        · rw [if_neg hlt, if_neg (by omega)]
    · intro k hk
      rw [hnbins] at hk
      rw [hpush]
      show (Impl.upd_spectrum _ _ _ _).getD k 0 = _
      have hkn : k < n := by omega
      rw [Impl.upd_spectrum_getD _ _ _ _ _ (by rw [ihcl]; exact hkn), if_pos hk]
      rw [ihspec k hk, ihpo, getD_range_map_pow ω n k hkn, hold, sub_zero]
      rw [Finset.sum_range_succ, add_mul, Finset.sum_mul]
      congr 1
      · refine Finset.sum_congr rfl (fun t ht => ?_)
        have htj : t < j := Finset.mem_range.mp ht
        have hexp : j + 1 - t = (j - t) + 1 := by omega
        rw [hexp, pow_succ, mul_assoc]
      · have hexp : j + 1 - j = 1 := by omega
        rw [hexp, pow_one]

--
-- C3.
--

/-- C3: for every window size `W >= 1`, every signal trait and every sample
sequence of length `W` satisfying the trait, pushing the `W` samples into an
engine whose window and spectrum start zero-filled makes `spectrum[k]`, for
every retained bin `k`, equal to bin `k` of the naively computed DFT of those
samples (exactly, in the exact arithmetic of the embedding), where the twiddle
table is `phase_offsets[i] = exp(j*2*pi*i/W) = ω ^ i` with positive sign and
`ω`, the exact value of `exp(j*2*pi/W)`, satisfies `ω ^ W = 1`. -/
theorem claim_C3_spectral_equivalence {F : Type} [CommRing F] [DecidableEq F]
    (ω : Cplx F) (p : FloatPrecision) (n : Nat) (tr : SignalTraits)
    (xs : List (Cplx F)) (hn : 1 ≤ n) (hlen : xs.length = n)
    (hroot : ω ^ n = 1) (hok : ∀ x ∈ xs, traitOk tr x = true) :
    ∀ k, k < (implRun (zeroEngine ω p n tr) xs).n_bins →
      (implRun (zeroEngine ω p n tr) xs).spectrum.getD k 0 = dftBin ω n xs k := by
  intro k hk
  have hinv := implRun_zero_take_inv ω p n tr xs hlen hok n (Nat.le_refl n)
  rw [show xs.take n = xs from by rw [← hlen]; exact List.take_length xs] at hinv
  rw [hinv.2.2.2.2.2.2.2 k hk]
  have := sdftSum_eq_dftBin ω n hn hroot xs k
  unfold sdftSum at this
  exact this

/-- Witness for C3 at a concrete input: window size 4, real-only trait,
samples `1,2,3,4`, `ω = j` (the exact `exp(j*2*pi/4)`, a fourth root of
unity); bin 1 of the engine spectrum equals bin 1 of the naive DFT. -/
theorem claim_C3_spectral_equivalence_witness :
    (1 ≤ 4 ∧ Fixtures.samples4.length = 4 ∧ Fixtures.ω4 ^ 4 = 1
        ∧ ∀ x ∈ Fixtures.samples4, traitOk SignalTraits.real_only x = true)
      ∧ 1 < (implRun (zeroEngine Fixtures.ω4 FloatPrecision.double 4
          SignalTraits.real_only) Fixtures.samples4).n_bins
      ∧ (implRun (zeroEngine Fixtures.ω4 FloatPrecision.double 4
          SignalTraits.real_only) Fixtures.samples4).spectrum.getD 1 0
        = dftBin Fixtures.ω4 4 Fixtures.samples4 1 :=
  ⟨⟨by decide, by decide, by decide, by decide⟩, by decide,
    claim_C3_spectral_equivalence Fixtures.ω4 FloatPrecision.double 4
      SignalTraits.real_only Fixtures.samples4 (by decide) (by decide)
      (by decide) (by decide) 1 (by decide)⟩

--
-- Suffix lemmas for `lastN`.
--

theorem lastN_of_le {α : Type} (n : Nat) (l : List α) (h : l.length ≤ n) :
    lastN n l = l := by
  unfold lastN
  rw [Nat.sub_eq_zero_of_le h, List.drop_zero]

theorem lastN_cons_of_le {α : Type} (n : Nat) (a : α) (l : List α)
    (h : n ≤ l.length) : lastN n (a :: l) = lastN n l := by
  unfold lastN
  have h1 : (a :: l).length - n = (l.length - n) + 1 := by
    simp only [List.length_cons]
    omega
  rw [h1, List.drop_succ_cons]

theorem lastN_append_right {α : Type} (n : Nat) (l1 l2 : List α)
    (h : n ≤ l2.length) : lastN n (l1 ++ l2) = lastN n l2 := by
  induction l1 with
  | nil => rfl
  | cons a l1 ih =>
    rw [List.cons_append, lastN_cons_of_le _ _ _ (by simp; omega), ih]

theorem lastN_append_singleton {α : Type} (k : Nat) (l : List α) (x : α)
    (h : k ≤ l.length) : lastN (k + 1) (l ++ [x]) = lastN k l ++ [x] := by
  unfold lastN
  have h1 : (l ++ [x]).length - (k + 1) = l.length - k := by
    simp only [List.length_append, List.length_cons, List.length_nil]
    omega
  rw [h1, List.drop_append_of_le_length (by omega)]

theorem lastN_length_of_le {α : Type} (n : Nat) (l : List α)
    (h : n ≤ l.length) : (lastN n l).length = n := by
  unfold lastN
  rw [List.length_drop]
  omega

theorem lastN_lastN {α : Type} (n k : Nat) (l : List α) (h : n ≤ k) :
    lastN n (lastN k l) = lastN n l := by
  by_cases hk : k ≤ l.length
  · unfold lastN
    rw [List.length_drop, List.drop_drop]
    congr 1
    omega
  · rw [lastN_of_le k l (by omega)]

theorem lastN_all {α : Type} (n : Nat) (l : List α) (p : α → Bool)
    (h : ∀ x ∈ l, p x = true) : ∀ x ∈ lastN n l, p x = true := by
  intro x hx
  exact h x (List.mem_of_mem_drop hx)

--
-- Immutable fields, well-formedness and the temporally ordered window under
-- pushes.
--

namespace Impl

variable {F : Type} [CommRing F] [DecidableEq F]

theorem pushState_immutable (s : Impl F) (ns : Cplx F) :
    (s.pushState ns).number_of_samples = s.number_of_samples
      ∧ (s.pushState ns).signal_traits = s.signal_traits
      ∧ (s.pushState ns).phase_offsets = s.phase_offsets
      ∧ (s.pushState ns).precision = s.precision := by
  unfold pushState push_next_sample
  split <;> exact ⟨rfl, rfl, rfl, rfl⟩

theorem pushState_wf (s : Impl F) (ns : Cplx F) (h : s.wf) :
    (s.pushState ns).wf := by
  obtain ⟨h1, h2, h3⟩ := h
  by_cases hok : s.matches_signal_trait ns = true
  · unfold pushState
    rw [push_next_sample_eq_ok s ns hok]
    refine ⟨?_, ?_, ?_⟩
    · show (s.signal.set _ _).length = s.number_of_samples
      rw [List.length_set]
      exact h1
    · show (upd_spectrum _ _ _ _).length = s.number_of_samples
      rw [upd_spectrum_length]
      exact h2
    · show (if s.signal_index + 1 = s.number_of_samples then 0
        else s.signal_index + 1) < s.number_of_samples
      rw [wrap_index_eq_mod _ _ h3]
      exact Nat.mod_lt _ (by omega)
  · unfold pushState
    rw [push_next_sample_eq_err s ns (by revert hok; cases s.matches_signal_trait ns <;> simp)]
    exact ⟨h1, h2, h3⟩

theorem clear_clear (s : Impl F) : s.clear.clear = s.clear := rfl

theorem clear_wf (s : Impl F) (hn : 1 ≤ s.number_of_samples) : s.clear.wf := by
  refine ⟨?_, ?_, ?_⟩ <;> simp [clear, hn] <;> omega

end Impl

theorem implRun_append {F : Type} [CommRing F] [DecidableEq F] (s : Impl F)
    (l1 l2 : List (Cplx F)) :
    implRun s (l1 ++ l2) = implRun (implRun s l1) l2 := by
  unfold implRun
  rw [List.foldl_append]

theorem implRun_immutable {F : Type} [CommRing F] [DecidableEq F] (s : Impl F)
    (ys : List (Cplx F)) :
    (implRun s ys).number_of_samples = s.number_of_samples
      ∧ (implRun s ys).signal_traits = s.signal_traits
      ∧ (implRun s ys).phase_offsets = s.phase_offsets
      ∧ (implRun s ys).precision = s.precision := by
  induction ys generalizing s with
  | nil => exact ⟨rfl, rfl, rfl, rfl⟩
  | cons y ys ih =>
    have h1 := ih (s.pushState y)
    have h2 := Impl.pushState_immutable s y
    have hstep : implRun s (y :: ys) = implRun (s.pushState y) ys := rfl
    rw [hstep]
    refine ⟨?_, ?_, ?_, ?_⟩
    · rw [h1.1, h2.1]
    · rw [h1.2.1, h2.2.1]
    · rw [h1.2.2.1, h2.2.2.1]
    · rw [h1.2.2.2, h2.2.2.2]

theorem implRun_wf {F : Type} [CommRing F] [DecidableEq F] (s : Impl F)
    (ys : List (Cplx F)) (h : s.wf) : (implRun s ys).wf := by
  induction ys generalizing s with
  | nil => exact h
  | cons y ys ih => exact ih (s.pushState y) (Impl.pushState_wf s y h)

theorem implRun_clear {F : Type} [CommRing F] [DecidableEq F] (s : Impl F)
    (ys : List (Cplx F)) : (implRun s ys).clear = s.clear := by
  obtain ⟨h1, h2, h3, h4⟩ := implRun_immutable s ys
  unfold Impl.clear
  rw [h1, h2, h3, h4]

/-- Adding a nonzero offset `r < n` to a cursor moves it, modulo `n`. -/
theorem add_mod_ne (idx r n : Nat) (hidx : idx < n) (hr : 0 < r) (hrn : r < n) :
    (idx + r) % n ≠ idx := by
  by_cases hc : idx + r < n
  · rw [Nat.mod_eq_of_lt hc]
    omega
  · have h2 : idx + r - n < n := by omega
    have h3 : (idx + r) % n = idx + r - n := by
      rw [Nat.mod_eq_sub_mod (by omega), Nat.mod_eq_of_lt h2]
    omega

namespace Impl

variable {F : Type} [CommRing F] [DecidableEq F]

theorem chrono_length (s : Impl F) : s.chrono.length = s.number_of_samples := by
  simp [chrono]

theorem chrono_getD (s : Impl F) (t : Nat) (h : t < s.number_of_samples) :
    s.chrono.getD t 0
      = s.signal.getD ((s.signal_index + t) % s.number_of_samples) 0 := by
  unfold chrono
  rw [List.getD_eq_getElem _ _ (by simpa using h)]
  simp

/-- One push slides the temporally ordered window: the oldest sample falls
off the front and the new sample enters at the back. -/
theorem chrono_pushState (s : Impl F) (x : Cplx F) (hwf : s.wf)
    (hok : s.matches_signal_trait x = true) :
    (s.pushState x).chrono = s.chrono.drop 1 ++ [x] := by
  obtain ⟨hsl, hcl, hidx⟩ := hwf
  have hn : 1 ≤ s.number_of_samples := by omega
  set n := s.number_of_samples with hns
  have hlen1 : (s.pushState x).chrono.length = n := by
    rw [chrono_length, (pushState_immutable s x).1]
  have hlen2 : (s.chrono.drop 1 ++ [x]).length = n := by
    rw [List.length_append, List.length_drop, chrono_length]
    simp
    omega
  refine List.ext_getElem (by rw [hlen1, hlen2]) (fun t h1 h2 => ?_)
  have htn : t < n := by rw [hlen1] at h1; exact h1
  rw [← List.getD_eq_getElem _ 0 h1,
    chrono_getD _ _ (by rw [(pushState_immutable s x).1]; exact htn)]
  unfold pushState
  rw [push_next_sample_eq_ok s x hok]
  show (s.signal.set s.signal_index _).getD
      (((if s.signal_index + 1 = n then 0 else s.signal_index + 1) + t) % n) 0
    = _
  rw [wrap_index_eq_mod _ _ hidx, Nat.mod_add_mod]
  rw [getD_set_zero _ _ _ _ (by rw [hsl]; exact hidx)]
  by_cases ht : t < n - 1
  · have hne : (s.signal_index + 1 + t) % n ≠ s.signal_index := by
      have hrw : s.signal_index + 1 + t = s.signal_index + (1 + t) := by omega
      rw [hrw]
      exact add_mod_ne _ _ _ hidx (by omega) (by omega)
    rw [if_neg hne]
    have hdl : t < (s.chrono.drop 1).length := by
      rw [List.length_drop, chrono_length]
      omega
    rw [List.getElem_append_left hdl, List.getElem_drop]
    have hb : 1 + t < s.chrono.length := by
      rw [chrono_length]
      omega
    rw [← List.getD_eq_getElem _ 0 hb, chrono_getD _ _ (by omega)]
    have hrw2 : s.signal_index + (1 + t) = s.signal_index + 1 + t := by omega
    rw [hrw2]
  · have hteq : t = n - 1 := by omega
    have hcond : (s.signal_index + 1 + t) % n = s.signal_index := by
      have hrw : s.signal_index + 1 + t = s.signal_index + n := by omega
      rw [hrw, Nat.add_mod_right, Nat.mod_eq_of_lt hidx]
    rw [if_pos hcond]
    have hdl : (s.chrono.drop 1).length ≤ t := by
      rw [List.length_drop, chrono_length]
      omega
    rw [List.getElem_append_right hdl]
    have : (s.chrono.drop 1).length = n - 1 := by
      rw [List.length_drop, chrono_length]
    simp only [this, hteq, Nat.sub_self, List.getElem_cons_zero]
    ring

end Impl

/-- Sliding a whole sample list: the temporally ordered window after a run is
the last `window_size` entries of the old window followed by the stream. -/
theorem chrono_implRun {F : Type} [CommRing F] [DecidableEq F] (s : Impl F)
    (ys : List (Cplx F)) (hwf : s.wf)
    (hok : ∀ y ∈ ys, traitOk s.signal_traits y = true) :
    (implRun s ys).chrono = lastN s.number_of_samples (s.chrono ++ ys) := by
  induction ys generalizing s with
  | nil =>
    show s.chrono = _
    rw [List.append_nil,
      lastN_of_le _ _ (by rw [Impl.chrono_length])]
  | cons y ys ih =>
    have hstep : implRun s (y :: ys) = implRun (s.pushState y) ys := rfl
    have hok1 : s.matches_signal_trait y = true := hok y (by simp)
    have hok2 : ∀ z ∈ ys, traitOk (s.pushState y).signal_traits z = true := by
      intro z hz
      rw [(Impl.pushState_immutable s y).2.1]
      exact hok z (by simp [hz])
    have hn : 1 ≤ s.number_of_samples := by
      obtain ⟨_, _, h3⟩ := hwf
      omega
    rw [hstep, ih (s.pushState y) (Impl.pushState_wf s y hwf) hok2,
      Impl.chrono_pushState s y hwf hok1, (Impl.pushState_immutable s y).1]
    obtain ⟨c0, l, hc⟩ : ∃ c0 l, s.chrono = c0 :: l := by
      cases hchr : s.chrono with
      | nil =>
        have := Impl.chrono_length s
        rw [hchr] at this
        simp at this
        omega
      | cons c0 l => exact ⟨c0, l, rfl⟩
    rw [hc]
    have hll : l.length = s.number_of_samples - 1 := by
      have := Impl.chrono_length s
      rw [hc] at this
      simp at this
      omega
    show lastN s.number_of_samples ((l ++ [y]) ++ ys) = _
    rw [List.append_assoc, List.singleton_append, List.cons_append,
      lastN_cons_of_le _ _ _ (by simp; omega)]

--
-- The three shapes of a successful Combiner push (src/src/sdft.cpp lines
-- 299-328), by the position of the cycle counter.
--

namespace Combined

variable {F : Type} [CommRing F] [DecidableEq F]

/-- A push away from both reset boundaries: both engines absorb the sample,
the counter advances. -/
theorem push_ok_mid (c : Combined F) (x : Cplx F)
    (hA : c.clear_counter ≠ c.number_of_samples)
    (hB : c.clear_counter ≠ 2 * c.number_of_samples)
    (h1 : c.first.matches_signal_trait x = true)
    (h2 : c.second.matches_signal_trait x = true) :
    c.push_next_sample x
      = (sdft_Error.NO_ERROR,
        { first := c.first.pushState x
          second := c.second.pushState x
          number_of_samples := c.number_of_samples
          clear_counter := c.clear_counter + 1 }) := by
  simp only [push_next_sample]
  rw [if_neg hA, if_neg hB]
  simp [Impl.pushState, Impl.push_next_sample_eq_ok _ _ h1,
    Impl.push_next_sample_eq_ok _ _ h2]

/-- The push at `cycle_counter = window_size`: the first engine is cleared
before absorbing the sample. -/
theorem push_ok_boundary1 (c : Combined F) (x : Cplx F)
    (hA : c.clear_counter = c.number_of_samples)
    (h1 : c.first.matches_signal_trait x = true)
    (h2 : c.second.matches_signal_trait x = true) :
    c.push_next_sample x
      = (sdft_Error.NO_ERROR,
        { first := c.first.clear.pushState x
          second := c.second.pushState x
          number_of_samples := c.number_of_samples
          clear_counter := c.clear_counter + 1 }) := by
  have h1' : c.first.clear.matches_signal_trait x = true := h1
  simp only [push_next_sample]
  rw [if_pos hA]
  simp [Impl.pushState, Impl.push_next_sample_eq_ok _ _ h1',
    Impl.push_next_sample_eq_ok _ _ h2]

/-- The push at `cycle_counter = 2 * window_size` (away from `window_size`):
the second engine is cleared before absorbing the sample and the counter
restarts at 1. -/
theorem push_ok_boundary2 (c : Combined F) (x : Cplx F)
    (hA : c.clear_counter ≠ c.number_of_samples)
    (hB : c.clear_counter = 2 * c.number_of_samples)
    (h1 : c.first.matches_signal_trait x = true)
    (h2 : c.second.matches_signal_trait x = true) :
    c.push_next_sample x
      = (sdft_Error.NO_ERROR,
        { first := c.first.pushState x
          second := c.second.clear.pushState x
          number_of_samples := c.number_of_samples
          clear_counter := 1 }) := by
  have h2' : c.second.clear.matches_signal_trait x = true := h2
  simp only [push_next_sample]
  rw [if_neg hA, if_pos hB]
  simp [Impl.pushState, Impl.push_next_sample_eq_ok _ _ h1,
    Impl.push_next_sample_eq_ok _ _ h2']

end Combined

/-- The ghost ages never influence the evolution of the underlying Combiner
state: erasing them from an instrumented run yields the plain run. -/
theorem combARun_c {F : Type} [CommRing F] [DecidableEq F] (c : Combined F)
    (a1 a2 : Nat) (xs : List (Cplx F)) :
    (combARun ⟨c, a1, a2⟩ xs).c = combRun c xs := by
  induction xs generalizing c a1 a2 with
  | nil => rfl
  | cons x xs ih =>
    show (combARun ((⟨c, a1, a2⟩ : CombinedA F).pushState x) xs).c
      = combRun (c.pushState x) xs
    exact ih (c.pushState x) _ _

theorem combARun_append {F : Type} [CommRing F] [DecidableEq F]
    (ca : CombinedA F) (l1 l2 : List (Cplx F)) :
    combARun ca (l1 ++ l2) = combARun (combARun ca l1) l2 := by
  unfold combARun
  rw [List.foldl_append]

theorem implRun_concat {F : Type} [CommRing F] [DecidableEq F] (s : Impl F)
    (l : List (Cplx F)) (x : Cplx F) :
    implRun s (l ++ [x]) = (implRun s l).pushState x := by
  rw [implRun_append]
  rfl

theorem lastN_one_append {α : Type} (l : List α) (x : α) :
    lastN 1 (l ++ [x]) = [x] := by
  have h := lastN_append_singleton 0 l x (by omega)
  rw [h]
  unfold lastN
  rw [Nat.sub_zero, List.drop_length, List.nil_append]

--
-- Arithmetic of the cycle counter.
--

theorem ccAfter_ge_one (n m : Nat) : 1 ≤ ccAfter n m := by
  unfold ccAfter
  omega

theorem ccAfter_le_push_count (n m : Nat) (hm : 1 ≤ m) : ccAfter n m ≤ m := by
  unfold ccAfter
  have := Nat.mod_le (m - 1) (2 * n)
  omega

theorem ccAfter_le_two_n (n m : Nat) (hn : 1 ≤ n) : ccAfter n m ≤ 2 * n := by
  unfold ccAfter
  have : (m - 1) % (2 * n) < 2 * n := Nat.mod_lt _ (by omega)
  omega

theorem ccAfter_of_le (n m : Nat) (hm : 1 ≤ m) (h : m ≤ 2 * n) :
    ccAfter n m = m := by
  unfold ccAfter
  rw [Nat.mod_eq_of_lt (by omega)]
  omega

theorem ccAfter_succ (n m : Nat) (hn : 1 ≤ n) (hm : 1 ≤ m) :
    ccAfter n (m + 1) = if ccAfter n m = 2 * n then 1 else ccAfter n m + 1 := by
  have h2n : 0 < 2 * n := by omega
  have hr : (m - 1) % (2 * n) < 2 * n := Nat.mod_lt _ h2n
  have hm1 : m - 1 + 1 = m := by omega
  have hone : 1 % (2 * n) = 1 := Nat.mod_eq_of_lt (by omega)
  have hmod : m % (2 * n) = ((m - 1) % (2 * n) + 1) % (2 * n) := by
    conv_lhs => rw [← hm1]
    rw [Nat.add_mod, hone]
  by_cases hq : (m - 1) % (2 * n) + 1 = 2 * n
  · rw [if_pos (by unfold ccAfter; omega)]
    unfold ccAfter
    rw [Nat.add_sub_cancel, hmod, hq, Nat.mod_self]
  · rw [if_neg (by unfold ccAfter; omega)]
    unfold ccAfter
    rw [Nat.add_sub_cancel, hmod, Nat.mod_eq_of_lt (by omega)]

/-- When `n < m` and the counter is at most `n`, at least one full reset cycle
lies behind: `m` is at least `2 * n` past the counter. -/
theorem ccAfter_cycle_bound (n m : Nat) (hn : 1 ≤ n) (hm : n < m)
    (h : ccAfter n m ≤ n) : 2 * n + ccAfter n m ≤ m := by
  have hdm := Nat.div_add_mod (m - 1) (2 * n)
  have hcc : ccAfter n m = (m - 1) % (2 * n) + 1 := rfl
  rw [hcc] at h ⊢
  by_cases hq : (m - 1) / (2 * n) = 0
  · rw [hq, Nat.mul_zero, Nat.zero_add] at hdm
    omega
  · have hA : 2 * n ≤ 2 * n * ((m - 1) / (2 * n)) :=
      Nat.le_mul_of_pos_right _ (Nat.pos_of_ne_zero hq)
    omega

theorem Impl.matches_of_traits {F : Type} [CommRing F] [DecidableEq F]
    (s : Impl F) (tr : SignalTraits) (x : Cplx F) (h : s.signal_traits = tr)
    (hx : traitOk tr x = true) : s.matches_signal_trait x = true := by
  unfold Impl.matches_signal_trait
  rw [h]
  exact hx

/-- The full characterization of an instrumented Combiner run over a
trait-respecting stream: the cycle counter follows `ccAfter`, the second
engine is exactly a fresh engine fed the last `ccAfter` samples (its ghost
age), and the first engine is either the original engine fed the whole stream
(while the stream is no longer than the window, before its first reset) or a
fresh engine fed the last `age1` samples, where `age1` swings between
`window_size + 1` and `2 * window_size` while the first engine is exposed and
between 1 and `window_size` while the second one is. -/
theorem combARun_inv {F : Type} [CommRing F] [DecidableEq F]
    (f0 s0 : Impl F) (n : Nat) (tr : SignalTraits) (hn : 1 ≤ n)
    (hf0n : f0.number_of_samples = n) (hs0n : s0.number_of_samples = n)
    (hf0tr : f0.signal_traits = tr) (hs0tr : s0.signal_traits = tr) :
    ∀ (xs : List (Cplx F)), (∀ x ∈ xs, traitOk tr x = true) → 1 ≤ xs.length →
      (combARun ⟨Combined.init f0 s0, 0, 0⟩ xs).c.number_of_samples = n
      ∧ (combARun ⟨Combined.init f0 s0, 0, 0⟩ xs).c.clear_counter
        = ccAfter n xs.length
      ∧ (combARun ⟨Combined.init f0 s0, 0, 0⟩ xs).age2 = ccAfter n xs.length
      ∧ (combARun ⟨Combined.init f0 s0, 0, 0⟩ xs).c.second
        = implRun s0.clear (lastN (ccAfter n xs.length) xs)
      ∧ (combARun ⟨Combined.init f0 s0, 0, 0⟩ xs).age1
        = (if xs.length ≤ n then xs.length
          else if ccAfter n xs.length ≤ n then ccAfter n xs.length + n
          else ccAfter n xs.length - n)
      ∧ (combARun ⟨Combined.init f0 s0, 0, 0⟩ xs).c.first
        = (if xs.length ≤ n then implRun f0 xs
          else implRun f0.clear
            (lastN (if ccAfter n xs.length ≤ n then ccAfter n xs.length + n
              else ccAfter n xs.length - n) xs)) := by
  intro xs
  induction xs using List.reverseRecOn with
  | nil =>
    intro _ habs
    simp at habs
  | append_singleton ys x ih =>
    intro hok hm
    have hx : traitOk tr x = true := hok x (by simp)
    by_cases hys : ys.length = 0
    · -- the very first push: no reset is scheduled, both engines absorb x
      have hempty : ys = [] := List.length_eq_zero.mp hys
      subst hempty
      have hinit1 : (Combined.init f0 s0).clear_counter = 0 := rfl
      have hinit2 : (Combined.init f0 s0).number_of_samples
          = f0.number_of_samples := rfl
      have h1 : (Combined.init f0 s0).first.matches_signal_trait x = true :=
        Impl.matches_of_traits _ tr x hf0tr hx
      have h2 : (Combined.init f0 s0).second.matches_signal_trait x = true :=
        Impl.matches_of_traits _ tr x hs0tr hx
      have hpc := Combined.push_ok_mid (Combined.init f0 s0) x
        (by rw [hinit1, hinit2, hf0n]; omega)
        (by rw [hinit1, hinit2, hf0n]; omega) h1 h2
      have hcc1 : ccAfter n 1 = 1 := ccAfter_of_le n 1 (by omega) (by omega)
      have hps : combARun (⟨Combined.init f0 s0, 0, 0⟩ : CombinedA F) [x]
          = ⟨⟨f0.pushState x, (Combined.init f0 s0).second.pushState x,
              f0.number_of_samples, 1⟩, 1, 1⟩ := by
        show ((⟨Combined.init f0 s0, 0, 0⟩ : CombinedA F).pushState x) = _
        unfold CombinedA.pushState CombinedA.push_next_sample
        rw [hpc]
        simp [Combined.init, hf0n]
      rw [List.nil_append]
      rw [hps]
      simp only [List.length_cons, List.length_nil]
      refine ⟨hf0n, ?_, ?_, ?_, ?_, ?_⟩
      · rw [hcc1]
      · rw [hcc1]
      · rw [hcc1]
        show (Combined.init f0 s0).second.pushState x
          = implRun s0.clear (lastN 1 [x])
        rw [lastN_of_le _ _ (by simp)]
        rfl
      · rw [if_pos hn]
      · rw [if_pos hn]
        rfl
    · -- at least one push has happened: use the characterization so far
      have hm1 : 1 ≤ ys.length := by omega
      have hoky : ∀ y ∈ ys, traitOk tr y = true := by
        intro y hy
        exact hok y (by simp [hy])
      obtain ⟨hc1, hc2, hc3, hc4, hc5, hc6⟩ := ih hoky hm1
      set cb := combARun (⟨Combined.init f0 s0, 0, 0⟩ : CombinedA F) ys with hcb
      set m := ys.length with hmy
      set cc := ccAfter n m with hccd
      have hccm : cc ≤ m := ccAfter_le_push_count n m hm1
      have hcc2n : cc ≤ 2 * n := ccAfter_le_two_n n m hn
      have hcc1 : 1 ≤ cc := ccAfter_ge_one n m
      have hlen : (ys ++ [x]).length = m + 1 := by simp
      have htr1 : cb.c.first.signal_traits = tr := by
        rw [hc6]
        split
        · rw [(implRun_immutable _ _).2.1]
          exact hf0tr
        · rw [(implRun_immutable _ _).2.1]
          exact hf0tr
      have htr2 : cb.c.second.signal_traits = tr := by
        rw [hc4, (implRun_immutable _ _).2.1]
        exact hs0tr
      have h1 : cb.c.first.matches_signal_trait x = true :=
        Impl.matches_of_traits _ tr x htr1 hx
      have h2 : cb.c.second.matches_signal_trait x = true :=
        Impl.matches_of_traits _ tr x htr2 hx
      have hstep : combARun (⟨Combined.init f0 s0, 0, 0⟩ : CombinedA F)
          (ys ++ [x]) = cb.pushState x := by
        rw [combARun_append]
        rfl
      rw [hstep, hlen]
      by_cases hA : cc = n
      · -- the push at cycle_counter = window_size: first engine cleared
        have hpc := Combined.push_ok_boundary1 cb.c x
          (by rw [hc2, hc1, hA]) h1 h2
        have hccs : ccAfter n (m + 1) = cc + 1 := by
          rw [ccAfter_succ n m hn hm1, if_neg (by omega), hccd]
        have hps : cb.pushState x
            = ⟨⟨cb.c.first.clear.pushState x, cb.c.second.pushState x,
                cb.c.number_of_samples, cb.c.clear_counter + 1⟩, 1, cb.age2 + 1⟩ := by
          unfold CombinedA.pushState CombinedA.push_next_sample
          rw [hpc]
          simp [hc2, hc1, hA]
        rw [hps]
        have hmn : n ≤ m := by omega
        refine ⟨hc1, ?_, ?_, ?_, ?_, ?_⟩
        · rw [hc2, hccs, hccd]
        · rw [hc3, hccs, hccd]
        · rw [hc4, hccs, ← implRun_concat,
            lastN_append_singleton _ _ _ (by omega)]
        · rw [hccs, if_neg (by omega), if_neg (by omega),
            show cc + 1 - n = 1 from by omega]
        · rw [hccs, if_neg (by omega), if_neg (by omega)]
          have hclr : cb.c.first.clear = f0.clear := by
            rw [hc6]
            split
            · rw [implRun_clear]
            · rw [implRun_clear, Impl.clear_clear]
          rw [hclr]
          have hone : cc + 1 - n = 1 := by omega
          rw [hone, lastN_one_append]
          rfl
      · by_cases hB : cc = 2 * n
        · -- the push at cycle_counter = 2 * window_size: second engine cleared
          have hpc := Combined.push_ok_boundary2 cb.c x
            (by rw [hc2, hc1]; omega)
            (by rw [hc2, hc1, hB]) h1 h2
          have hccs : ccAfter n (m + 1) = 1 := by
            rw [ccAfter_succ n m hn hm1, if_pos (by omega)]
          have hps : cb.pushState x
              = ⟨⟨cb.c.first.pushState x, cb.c.second.clear.pushState x,
                  cb.c.number_of_samples, 1⟩, cb.age1 + 1, 1⟩ := by
            unfold CombinedA.pushState CombinedA.push_next_sample
            rw [hpc]
            simp [hc2, hc1, hA, hB]
            exact ⟨fun hfalse => absurd hfalse (by omega),
              fun hfalse => absurd hfalse (by omega)⟩
          rw [hps]
          have hm2n : 2 * n ≤ m := by omega
          refine ⟨hc1, ?_, ?_, ?_, ?_, ?_⟩
          · rw [hccs]
          · rw [hccs]
          · rw [hccs]
            have hclr : cb.c.second.clear = s0.clear := by
              rw [hc4, implRun_clear, Impl.clear_clear]
            rw [hclr, lastN_one_append]
            rfl
          · rw [hc5, if_neg (by omega), if_neg (by omega), if_neg (by omega),
              hccs, if_pos (by omega),
              show (1 : Nat) + n = cc - n + 1 from by omega]
          · rw [hc6, if_neg (by omega), if_neg (by omega), hccs,
              if_neg (by omega), if_pos (by omega)]
            have harn : cc - n = n := by omega
            rw [harn, ← implRun_concat,
              show (1 : Nat) + n = n + 1 from by omega,
              lastN_append_singleton _ _ _ (by omega)]
        · -- a push away from both boundaries
          have hpc := Combined.push_ok_mid cb.c x
            (by rw [hc2, hc1]; omega)
            (by rw [hc2, hc1]; omega) h1 h2
          have hccs : ccAfter n (m + 1) = cc + 1 := by
            rw [ccAfter_succ n m hn hm1, if_neg (by omega), hccd]
          have hps : cb.pushState x
              = ⟨⟨cb.c.first.pushState x, cb.c.second.pushState x,
                  cb.c.number_of_samples, cb.c.clear_counter + 1⟩,
                cb.age1 + 1, cb.age2 + 1⟩ := by
            unfold CombinedA.pushState CombinedA.push_next_sample
            rw [hpc]
            simp [hc2, hc1, hA, hB]
          rw [hps]
          refine ⟨hc1, ?_, ?_, ?_, ?_, ?_⟩
          · rw [hc2, hccs, hccd]
          · rw [hc3, hccs, hccd]
          · rw [hc4, hccs, ← implRun_concat,
              lastN_append_singleton _ _ _ (by omega)]
          · by_cases hmn : m + 1 ≤ n
            · have hccm2 : cc = m := by
                rw [hccd]
                exact ccAfter_of_le n m hm1 (by omega)
              rw [if_pos hmn, hc5, if_pos (by omega)]
            · have hmgt : ¬ m ≤ n := by
                intro hmle
                have hccm2 : cc = m := by
                  rw [hccd]
                  exact ccAfter_of_le n m hm1 (by omega)
                omega
              rw [if_neg hmn, hc5, if_neg hmgt, hccs]
              by_cases hcn : cc ≤ n
              · rw [if_pos (by omega), if_pos (by omega),
                  show cc + 1 + n = cc + n + 1 from by omega]
              · rw [if_neg (by omega), if_neg (by omega),
                  show cc + 1 - n = cc - n + 1 from by omega]
          · by_cases hmn : m + 1 ≤ n
            · have hccm2 : cc = m := by
                rw [hccd]
                exact ccAfter_of_le n m hm1 (by omega)
              rw [if_pos hmn, hc6, if_pos (by omega), ← implRun_concat]
            · have hmgt : ¬ m ≤ n := by
                intro hmle
                have hccm2 : cc = m := by
                  rw [hccd]
                  exact ccAfter_of_le n m hm1 (by omega)
                omega
              rw [if_neg hmn, hc6, if_neg hmgt, hccs]
              by_cases hcn : cc ≤ n
              · have hbound : 2 * n + cc ≤ m :=
                  ccAfter_cycle_bound n m hn (by omega) (by rw [← hccd]; exact hcn)
                rw [if_pos hcn, if_pos (by omega), ← implRun_concat,
                  show cc + 1 + n = cc + n + 1 from by omega,
                  lastN_append_singleton _ _ _ (by omega)]
              · rw [if_neg hcn, if_neg (by omega), ← implRun_concat,
                  show cc + 1 - n = cc - n + 1 from by omega,
                  lastN_append_singleton _ _ _ (by omega)]

--
-- C5.
--

/-- C5 (counterexample): after two pushes into a window-size-1 Combiner built
over two zero-filled engines, the exposed (authoritative) engine is the
second one, and it has absorbed 2 pushes since it was last reset to zero —
more than `window_size = 1`, contradicting the claim that the exposed
spectrum has accumulated error for at most `window_size` pushes since the
last reset.  (The first push raised the counter to 1 = window_size, so the
second push cleared the *first* engine while the second kept accumulating.)
The final conjunct checks that the instrumented run projects to the plain
`Combined` run. -/
theorem claim_C5_counterexample :
    (combARun (⟨Combined.init Fixtures.eng1r Fixtures.eng1r, 0, 0⟩ :
        CombinedA Int) [⟨1, 0⟩, ⟨2, 0⟩]).exposedAge = 2
      ∧ (Combined.init Fixtures.eng1r Fixtures.eng1r).number_of_samples = 1
      ∧ ¬((combARun (⟨Combined.init Fixtures.eng1r Fixtures.eng1r, 0, 0⟩ :
        CombinedA Int) [⟨1, 0⟩, ⟨2, 0⟩]).exposedAge
          ≤ (Combined.init Fixtures.eng1r Fixtures.eng1r).number_of_samples)
      ∧ (combARun (⟨Combined.init Fixtures.eng1r Fixtures.eng1r, 0, 0⟩ :
        CombinedA Int) [⟨1, 0⟩, ⟨2, 0⟩]).c
        = combRun (Combined.init Fixtures.eng1r Fixtures.eng1r)
          [⟨1, 0⟩, ⟨2, 0⟩] := by
  refine ⟨by decide, by decide, by decide, by decide⟩

/-- C5 (amended): in every state of a Combiner reachable by trait-respecting
pushes from its initial state, exactly one inner engine is authoritative —
the first iff `cycle_counter <= window_size`, where the counter after `m`
pushes is `(m - 1) mod (2 * window_size) + 1`, so authority alternates every
`window_size` pushes; the authoritative engine's window holds a full,
correctly time-ordered copy of the last `window_size` samples once at least
`window_size` samples have been pushed; and its spectrum has accumulated
error for at most `2 * window_size` pushes (not `window_size`) since that
engine was last reset to zero, the exact count being `exposedAgeAfter`.
The ghost ages of the instrumented run never influence the run itself
(first conjunct). -/
theorem claim_C5_amended {F : Type} [CommRing F] [DecidableEq F]
    (f0 s0 : Impl F) (n : Nat) (tr : SignalTraits) (hn : 1 ≤ n)
    (hwff : f0.wf) (hf0n : f0.number_of_samples = n)
    (hs0n : s0.number_of_samples = n) (hf0tr : f0.signal_traits = tr)
    (hs0tr : s0.signal_traits = tr) (xs : List (Cplx F))
    (hok : ∀ x ∈ xs, traitOk tr x = true) (hm : 1 ≤ xs.length) :
    (combARun ⟨Combined.init f0 s0, 0, 0⟩ xs).c
        = combRun (Combined.init f0 s0) xs
      ∧ (combARun ⟨Combined.init f0 s0, 0, 0⟩ xs).c.clear_counter
        = ccAfter n xs.length
      ∧ (ccAfter n xs.length ≤ n ↔ (xs.length - 1) % (2 * n) < n)
      ∧ (combARun ⟨Combined.init f0 s0, 0, 0⟩ xs).c.exposed
        = (if ccAfter n xs.length ≤ n
          then (combARun ⟨Combined.init f0 s0, 0, 0⟩ xs).c.first
          else (combARun ⟨Combined.init f0 s0, 0, 0⟩ xs).c.second)
      ∧ (n ≤ xs.length →
        (combARun ⟨Combined.init f0 s0, 0, 0⟩ xs).c.exposed.chrono
          = lastN n xs)
      ∧ (combARun ⟨Combined.init f0 s0, 0, 0⟩ xs).exposedAge
        = exposedAgeAfter n xs.length
      ∧ exposedAgeAfter n xs.length ≤ 2 * n := by
  obtain ⟨hc1, hc2, hc3, hc4, hc5, hc6⟩ :=
    combARun_inv f0 s0 n tr hn hf0n hs0n hf0tr hs0tr xs hok hm
  set ca := combARun (⟨Combined.init f0 s0, 0, 0⟩ : CombinedA F) xs with hca
  set m := xs.length with hmx
  set cc := ccAfter n m with hccd
  have hccm : cc ≤ m := ccAfter_le_push_count n m hm
  have hcc2n : cc ≤ 2 * n := ccAfter_le_two_n n m hn
  have hcc1 : 1 ≤ cc := ccAfter_ge_one n m
  have hexp : ca.c.exposed = (if cc ≤ n then ca.c.first else ca.c.second) := by
    unfold Combined.exposed
    rw [hc2, hc1]
  have hwfc : ∀ (e : Impl F), e.number_of_samples = n → e.clear.wf :=
    fun e he => Impl.clear_wf e (by omega)
  have hcx : cc = (m - 1) % (2 * n) + 1 := hccd
  refine ⟨combARun_c _ _ _ xs, hc2, by omega, hexp, ?_, ?_, ?_⟩
  · intro hnm
    rw [hexp]
    by_cases hcn : cc ≤ n
    · rw [if_pos hcn, hc6]
      by_cases hmn : m ≤ n
      · have hmeq : m = n := by omega
        rw [if_pos hmn, chrono_implRun f0 xs hwff
          (by rw [hf0tr]; exact hok), hf0n,
          lastN_append_right _ _ _ (by omega)]
      · have hbound : 2 * n + cc ≤ m :=
          ccAfter_cycle_bound n m hn (by omega) hcn
        rw [if_neg hmn, if_pos hcn,
          chrono_implRun f0.clear (lastN (cc + n) xs) (hwfc f0 hf0n)
            (by
              have : f0.clear.signal_traits = tr := hf0tr
              rw [this]
              exact lastN_all _ _ _ hok)]
        have hcn2 : f0.clear.number_of_samples = n := hf0n
        rw [hcn2, lastN_append_right _ _ _
            (by rw [lastN_length_of_le _ _ (by omega)]; omega),
          lastN_lastN _ _ _ (by omega)]
    · rw [if_neg hcn, hc4,
        chrono_implRun s0.clear (lastN cc xs) (hwfc s0 hs0n)
          (by
            have : s0.clear.signal_traits = tr := hs0tr
            rw [this]
            exact lastN_all _ _ _ hok)]
      have hcn2 : s0.clear.number_of_samples = n := hs0n
      rw [hcn2, lastN_append_right _ _ _
          (by rw [lastN_length_of_le _ _ (by omega)]; omega),
        lastN_lastN _ _ _ (by omega)]
  · unfold CombinedA.exposedAge
    rw [hc2, hc1, hc3, hc5]
    unfold exposedAgeAfter
    rw [← hccd]
    by_cases hcn : cc ≤ n
    · rw [if_pos hcn]
      by_cases hmn : m ≤ n
      · rw [if_pos hmn, if_pos hmn]
      · rw [if_neg hmn, if_neg hmn, if_pos hcn, if_pos hcn]
    · rw [if_neg hcn]
      have hmn : ¬ m ≤ n := by
        intro hle
        have : cc = m := ccAfter_of_le n m hm (by omega)
        omega
      rw [if_neg hmn, if_neg hcn]
  · unfold exposedAgeAfter
    rw [← hccd]
    by_cases hmn : m ≤ n
    · rw [if_pos hmn]
      omega
    · rw [if_neg hmn]
      by_cases hcn : cc ≤ n
      · rw [if_pos hcn]
        omega
      · rw [if_neg hcn]
        omega

/-- Witness for C5 (amended) at a concrete input: the window-size-1 real-only
Combiner over zero-filled engines after the two pushes of the counterexample:
the exposed engine holds the last sample, its age is `exposedAgeAfter 1 2 = 2
<= 2 * 1`, and the instrumented run projects to the plain one. -/
theorem claim_C5_amended_witness :
    (combARun (⟨Combined.init Fixtures.eng1r Fixtures.eng1r, 0, 0⟩ :
        CombinedA Int) [⟨1, 0⟩, ⟨2, 0⟩]).c
        = combRun (Combined.init Fixtures.eng1r Fixtures.eng1r) [⟨1, 0⟩, ⟨2, 0⟩]
      ∧ (combARun (⟨Combined.init Fixtures.eng1r Fixtures.eng1r, 0, 0⟩ :
        CombinedA Int) [⟨1, 0⟩, ⟨2, 0⟩]).c.exposed.chrono
        = lastN 1 [(⟨1, 0⟩ : Cplx Int), ⟨2, 0⟩]
      ∧ (combARun (⟨Combined.init Fixtures.eng1r Fixtures.eng1r, 0, 0⟩ :
        CombinedA Int) [⟨1, 0⟩, ⟨2, 0⟩]).exposedAge = exposedAgeAfter 1 2
      ∧ exposedAgeAfter 1 2 ≤ 2 * 1 := by
  have h := claim_C5_amended Fixtures.eng1r Fixtures.eng1r 1
    SignalTraits.real_only (by decide) (by decide) (by decide) (by decide)
    (by decide) (by decide) [⟨1, 0⟩, ⟨2, 0⟩] (by decide) (by decide)
  exact ⟨h.1, h.2.2.2.2.1 (by decide), h.2.2.2.2.2.1, h.2.2.2.2.2.2⟩
